import Mathlib

/-!
Verification of the `evm-asm` assembler front end.

Shallow embedding of the repository's three components:

* `src/tokenizer.rs` — lexical scanner (`tokenize`),
* `src/parser.rs`    — recursive-descent parser (`parse`),
* `src/codegen.rs`   — binary encoder (`generate_value` / `generate`).

Modelling conventions:

* Rust `u64`/`usize`/`u8` counters are modelled as `Nat`; wrap-around is modelled
  with `% 2 ^ w` exactly where the source performs a conversion (`as u64`,
  `as u8`).  Line/column counters never wrap on realistic inputs and are `Nat`.
* Rust `f64` is modelled as `ℚ`: decimal literal parsing is modelled exactly
  (rounding to binary64 is not modelled); `trunc`, comparisons and the
  saturating `as u64` cast are modelled on the exact value.  The IEEE-754
  bit-level serialization of a number (`f64::to_le_bytes`) is abstracted as an
  explicit function argument `f64le` of the encoder.
* The index-based scanner loop of `tokenize` (which moves `i` forward and then
  one step back before `break`) is embedded as a scanner over the remaining
  character list; every inner `while` of the source becomes one total helper
  function, and the outer `while` becomes `tokLoop`, driven by explicit fuel
  (one unit per outer iteration), with `none` modelling fuel exhaustion.
* Rust panics (out-of-bounds `Vec` indexing, `usize` underflow in debug mode,
  `unreachable!`) are modelled as the explicit outcome `POut.panic`.
* Error strings built with `format!` are modelled as structured error values
  carrying the same data (the formatted payloads and locations).
-/

namespace EvmAsm

/-- `Loc` from src/tokenizer.rs lines 4-9: line, column, filename. -/
structure Loc where
  line : Nat
  col : Nat
  filename : String
deriving DecidableEq, Repr

/-- `TokenType` from src/tokenizer.rs lines 17-62, in declaration order.
`Number` and `String` carry the raw scanned text. -/
inductive TokenType where
  | Eof
  | Nil
  | Number (text : String)
  | String (text : String)
  | Boolean (b : Bool)
  | LeftSquare
  | RightSquare
  | LeftCurly
  | RightCurly
  | Push
  | Dup
  | Swap
  | ILoad
  | Load
  | Drop
  | Query
  | Info
  | Each
  | Reduce
  | Reverse
  | Map
  | Filter
  | Call
  | ToStr
  | ToNum
  | Add
  | Sub
  | Mul
  | Div
  | Mod
  | Eq
  | NotEq
  | Greater
  | GreaterEq
  | Less
  | LessEq
  | And
  | Or
  | Not
  | Concat
  | Match
  | Split
  | Iota
deriving DecidableEq, Repr

/-- `Token` from src/tokenizer.rs lines 121-125. -/
structure Token where
  typ : TokenType
  loc : Loc
deriving DecidableEq, Repr

/-- The lexer's only error: src/tokenizer.rs line 344, the
"Unterminated string starting on {loc}" message, carrying the string
literal's start location. -/
inductive LexErr where
  | unterminatedString (loc : Loc)
deriving DecidableEq, Repr

/-- Rust `char::is_whitespace` (Unicode `White_Space`), used by the scanner
at src/tokenizer.rs lines 233, 316, 355. -/
def rsIsWhitespace (c : Char) : Bool :=
  c = '\t' ∨ c = '\n' ∨ c = '\u000B' ∨ c = '\u000C' ∨ c = '\r' ∨ c = ' ' ∨
  c = '\u0085' ∨ c = ' ' ∨ c = ' ' ∨
  c = ' ' ∨ c = ' ' ∨ c = ' ' ∨ c = ' ' ∨ c = ' ' ∨
  c = ' ' ∨ c = ' ' ∨ c = ' ' ∨ c = ' ' ∨ c = ' ' ∨
  c = ' ' ∨ c = ' ' ∨ c = ' ' ∨ c = ' ' ∨ c = ' ' ∨
  c = '　'

/-- `token_map` from src/tokenizer.rs lines 148-153: the four bracket
characters, each its own token. -/
def token_map (c : Char) : Option TokenType :=
  if c = '[' then some .LeftSquare
  else if c = ']' then some .RightSquare
  else if c = '{' then some .LeftCurly
  else if c = '}' then some .RightCurly
  else none

/-- `op_map` from src/tokenizer.rs lines 155-190: the keyword/operator table.
Note that `nil`, `true`, `false` and `if` are absent from this table. -/
def op_list : List (String × TokenType) :=
  [("push", .Push), ("dup", .Dup), ("swap", .Swap), ("iload", .ILoad),
   ("load", .Load), ("drop", .Drop), ("query", .Query), ("info", .Info),
   ("each", .Each), ("reduce", .Reduce), ("reverse", .Reverse), ("map", .Map),
   ("filter", .Filter), ("call", .Call), ("tostr", .ToStr), ("tonum", .ToNum),
   ("+", .Add), ("-", .Sub), ("*", .Mul), ("/", .Div), ("%", .Mod),
   ("=", .Eq), ("!=", .NotEq), (">", .Greater), (">=", .GreaterEq),
   ("<", .Less), ("<=", .LessEq), ("and", .And), ("or", .Or), ("not", .Not),
   ("concat", .Concat), ("match", .Match), ("split", .Split), ("iota", .Iota)]

/-- The `op_map` lookup (`contains_key` + index). -/
def op_map (s : String) : Option TokenType :=
  op_list.lookup s

/-- The number-scan inner loop of src/tokenizer.rs lines 244-258 (digit start)
and, identically, lines 292-306 (`-` start): consume contiguous digits plus at
most one `.`; returns the consumed buffer suffix and the remaining input.  The
source's `i -= 1; col -= 1; break` undoes the final lookahead step, which the
list form expresses by peeking before consuming. -/
def scanNum : List Char → Bool → List Char × List Char
  | [], _ => ([], [])
  | ch :: rs, foundDot =>
    if ch.isDigit then
      (ch :: (scanNum rs foundDot).1, (scanNum rs foundDot).2)
    else if ch = '.' ∧ ¬foundDot then
      ('.' :: (scanNum rs true).1, (scanNum rs true).2)
    else ([], ch :: rs)

/-- The inner loop of the `.`-led number scan, src/tokenizer.rs lines 268-279:
digits only. -/
def scanDigits : List Char → List Char × List Char
  | [] => ([], [])
  | ch :: rs =>
    if ch.isDigit then
      (ch :: (scanDigits rs).1, (scanDigits rs).2)
    else ([], ch :: rs)

/-- The generic word-scan inner loop, src/tokenizer.rs lines 316-321 and
355-360: consume while the next character is not whitespace, `"`, or a
bracket. -/
def scanWord : List Char → List Char × List Char
  | [] => ([], [])
  | ch :: rs =>
    if ¬rsIsWhitespace ch ∧ ch ≠ '"' ∧ (token_map ch).isNone then
      (ch :: (scanWord rs).1, (scanWord rs).2)
    else ([], ch :: rs)

/-- The string-literal inner loop, src/tokenizer.rs lines 333-338: consume
verbatim up to (not including) the next `"`. -/
def scanStr : List Char → List Char × List Char
  | [] => ([], [])
  | ch :: rs =>
    if ch ≠ '"' then
      (ch :: (scanStr rs).1, (scanStr rs).2)
    else ([], ch :: rs)

/-- Decides a line terminator, as tested at src/tokenizer.rs lines 201, 225:
`\r` or `\n`. -/
def isLineTerm (c : Char) : Bool :=
  c = '\r' ∨ c = '\n'

/-- The guard of the `-` branch, src/tokenizer.rs line 285:
`(i + 1 < chars.len()) && ((chars[i + 1] == '.') || chars[i + 1].is_ascii_digit())`. -/
def minusStartsNum (rs : List Char) : Bool :=
  match rs with
  | d :: _ => d = '.' ∨ d.isDigit
  | [] => false

/-- One iteration of the outer scanner loop, src/tokenizer.rs lines 209-370,
at current character `c` with remaining input `rs`.  Returns the emitted
tokens (zero or one), the remaining input for the next iteration (the
source's final `i += 1` included), and the updated line/column — or the
unterminated-string error (line 344). -/
def tokStep (filename : String) (c : Char) (rs : List Char) (line col : Nat) :
    Except LexErr (List Token × List Char × Nat × Nat) :=
  if c = '\r' then
    -- lines 212-215: line break; a following `\n` is folded into it
    .ok ([], if rs.head? = some '\n' then rs.tail else rs, line + 1, 0)
  else if c = '\n' then
    -- lines 216-218
    .ok ([], rs, line + 1, 0)
  else if c = ';' then
    -- lines 219-232: line comment, consumed up to (not including) the terminator
    .ok ([], rs.dropWhile (fun nc => ¬isLineTerm nc), line, col)
  else if rsIsWhitespace c then
    -- lines 233-234
    .ok ([], rs, line, col)
  else if h : (token_map c).isSome then
    -- lines 235-236
    .ok ([⟨(token_map c).get h, ⟨line, col, filename⟩⟩], rs, line, col)
  else if c.isDigit then
    -- lines 237-262
    .ok ([⟨.Number (String.mk (c :: (scanNum rs false).1)), ⟨line, col, filename⟩⟩],
         (scanNum rs false).2, line, col + (scanNum rs false).1.length)
  else if c = '.' then
    -- lines 263-283
    .ok ([⟨.Number (String.mk (c :: (scanDigits rs).1)), ⟨line, col, filename⟩⟩],
         (scanDigits rs).2, line, col + (scanDigits rs).1.length)
  else if c = '-' then
    -- lines 284-328
    if minusStartsNum rs then
      -- lines 285-310: negative number literal, `-` included
      .ok ([⟨.Number (String.mk (c :: (scanNum rs false).1)), ⟨line, col, filename⟩⟩],
           (scanNum rs false).2, line, col + (scanNum rs false).1.length)
    else
      -- lines 311-328: generic word scan starting at `-`
      .ok ((match op_map (String.mk (c :: (scanWord rs).1)) with
            | some t => [⟨t, ⟨line, col, filename⟩⟩]
            | none => []),
           (scanWord rs).2, line, col + (scanWord rs).1.length)
  else if c = '"' then
    -- lines 329-349: string literal; an empty remainder after the scan means
    -- the final `i += 1` reaches `chars.len()`, the unterminated case
    if (scanStr rs).2.isEmpty then
      .error (.unterminatedString ⟨line, col, filename⟩)
    else
      .ok ([⟨.String (String.mk (scanStr rs).1), ⟨line, col, filename⟩⟩],
           (scanStr rs).2.tail, line, col + (scanStr rs).1.length + 1)
  else
    -- lines 350-367: generic word scan
    .ok ((match op_map (String.mk (c :: (scanWord rs).1)) with
          | some t => [⟨t, ⟨line, col, filename⟩⟩]
          | none => []),
         (scanWord rs).2, line, col + (scanWord rs).1.length)

/-- The outer scanner loop of src/tokenizer.rs lines 209-370 plus the final
`Eof` push of line 372.  `fuel` bounds the number of outer iterations;
`none` models fuel exhaustion (the loop body itself is `tokStep`). -/
def tokLoop (filename : String) :
    Nat → List Char → Nat → Nat → List Token → Option (Except LexErr (List Token))
  | _, [], line, col, acc =>
    some (.ok (acc ++ [⟨.Eof, ⟨line, col, filename⟩⟩]))
  | 0, _ :: _, _, _, _ => none
  | fuel + 1, c :: rs, line, col, acc =>
    match tokStep filename c rs line col with
    | .error e => some (.error e)
    | .ok (ts, rest, line', col') => tokLoop filename fuel rest line' col' (acc ++ ts)

/-- The shebang handling of src/tokenizer.rs lines 196-207: when the input
begins with `#!`, the first line is consumed up to (not including) its
terminator; the scan then starts at the terminator. -/
def shebangStrip (chars : List Char) : List Char :=
  if chars.head? = some '#' ∧ chars.tail.head? = some '!' then
    chars.dropWhile (fun ch => ¬isLineTerm ch)
  else chars

/-- `tokenize` from src/tokenizer.rs lines 139-375: shebang handling
(lines 196-207) followed by the scanner loop, with fuel equal to the input
length (each outer iteration consumes at least one character). -/
def tokenize (chars : List Char) (filename : String) :
    Option (Except LexErr (List Token)) :=
  tokLoop filename chars.length (shebangStrip chars) 1 1 []

/-- Reachability of a scanner state (remaining input, line, column) from
another under zero or more iterations of the outer loop body `tokStep` —
the claims' notion of the scan "reaching" a position of the input. -/
inductive ScanReach (fn : String) :
    List Char → Nat → Nat → List Char → Nat → Nat → Prop where
  | refl (rest line col) : ScanReach fn rest line col rest line col
  | step {c : Char} {rs : List Char} {line col : Nat} {ts : List Token}
      {rest : List Char} {l' c' : Nat} {r2 : List Char} {l2 c2 : Nat} :
      tokStep fn c rs line col = .ok (ts, rest, l', c') →
      ScanReach fn rest l' c' r2 l2 c2 →
      ScanReach fn (c :: rs) line col r2 l2 c2

/-! ## Parser (src/parser.rs) -/

mutual

/-- `Value` from src/parser.rs lines 11-20, in declaration order.  `f64` is
modelled as `ℚ` (see the file header). -/
inductive Value where
  | Nil
  | Number (val : ℚ)
  | String (val : String)
  | Boolean (val : Bool)
  | Function (cmds : List Command)
  | Array (vals : List Value)

/-- `Command` from src/parser.rs lines 22-60, in declaration order.  The
`u8` register of `ILoad` is modelled as `Nat` (reduced `% 256` where the
source casts). -/
inductive Command where
  | Push (v : Value)
  | Dup
  | Swap
  | ILoad (reg : Nat) (v : Value)
  | Load
  | Drop
  | Query
  | Info
  | If
  | Each
  | Reduce
  | Reverse
  | Map
  | Filter
  | Call
  | ToStr
  | ToNum
  | Add
  | Sub
  | Mul
  | Div
  | Mod
  | Eq
  | NotEq
  | Greater
  | GreaterEq
  | Less
  | LessEq
  | And
  | Or
  | Not
  | Concat
  | Match
  | Split
  | Iota

end

/-- Parse errors of src/parser.rs, structured by `format!` site:
`numFormat` (lines 211, 226), `unexpectedNum` (line 216), `regNotInt`
(line 272), `regRange` (line 278), `unexpected` (lines 255, 319). -/
inductive PErr where
  | numFormat (text : String)
  | unexpectedNum (found : TokenType) (loc : Loc)
  | regNotInt (reg : ℚ) (loc : Loc)
  | regRange (reg : Nat) (loc : Loc)
  | unexpected (found : TokenType) (loc : Loc)
deriving DecidableEq, Repr

/-- Outcome of a parser step: `panic` models a Rust panic (out-of-bounds
`Vec` index in `next`/`last`, `usize` underflow in `rewind`, or
`unreachable!`); `fuelOut` models exhaustion of the explicit recursion fuel
(an artifact of the embedding, never a behavior of the source); `ok` carries
the result together with the new cursor (the `ctok` cell). -/
inductive POut (α : Type) where
  | panic
  | fuelOut
  | error (e : PErr)
  | ok (a : α) (ctok : Nat)

/-- Sequencing of parser steps: propagates `panic`, `fuelOut` and errors. -/
def pbind {α β : Type} (x : POut α) (f : α → Nat → POut β) : POut β :=
  match x with
  | .panic => .panic
  | .fuelOut => .fuelOut
  | .error e => .error e
  | .ok a c => f a c

/-- Rust `str::parse::<f64>` (src/parser.rs lines 209, 224) restricted to the
decimal forms `[+-]? digits [. digits]` that the tokenizer can produce, with
the exact rational value (binary64 rounding is not modelled); any other text
fails.  At least one digit is required (`"."`, `"-"`, `""` fail, as in Rust). -/
def parseF64 (s : String) : Option ℚ :=
  let (neg, cs) :=
    match s.data with
    | '-' :: rest => (true, rest)
    | '+' :: rest => (false, rest)
    | rest => (false, rest)
  let intPart := cs.takeWhile (fun ch => ch.isDigit)
  let rest := cs.dropWhile (fun ch => ch.isDigit)
  let fracPart :=
    match rest with
    | '.' :: fs => some fs
    | [] => some []
    | _ => none
  match fracPart with
  | none => none
  | some fs =>
    if fs.all (fun ch => ch.isDigit) ∧ (intPart ≠ [] ∨ fs ≠ []) then
      let ip : Nat := intPart.foldl (fun n ch => 10 * n + ch.toNat - '0'.toNat) 0
      let fp : Nat := fs.foldl (fun n ch => 10 * n + ch.toNat - '0'.toNat) 0
      let num : Int := Int.ofNat (ip * 10 ^ fs.length + fp)
      some (mkRat (if neg then -num else num) (10 ^ fs.length))
    else none

/-- Rust's saturating `f64 as u64` cast (src/parser.rs line 275) on the exact
value: truncate toward zero, clamp to `[0, 2^64 - 1]`. -/
def rsF64toU64 (q : ℚ) : Nat :=
  if q < 0 then 0
  else if ((2 ^ 64 - 1 : ℕ) : ℚ) < q then 2 ^ 64 - 1
  else (q.num.tdiv (q.den : Int)).toNat

/-- `next` from src/parser.rs lines 149-152: advance the cursor and return
the token just passed; indexing out of bounds is a panic. -/
def next (tokens : List Token) (ctok : Nat) : POut Token :=
  if h : ctok < tokens.length then .ok (tokens.get ⟨ctok, h⟩) (ctok + 1)
  else .panic

/-- `last` from src/parser.rs lines 154-156: read `tokens[ctok - 1]` without
moving the cursor; `ctok = 0` underflows and out-of-bounds panics. -/
def last (tokens : List Token) (ctok : Nat) : POut Token :=
  if ctok = 0 then .panic
  else if h : ctok - 1 < tokens.length then .ok (tokens.get ⟨ctok - 1, h⟩) ctok
  else .panic

/-- `rewind` from src/parser.rs lines 158-160: move the cursor back;
`usize` underflow is a panic (debug semantics; in release it would wrap and
the following index would panic instead). -/
def rewind (ctok amount : Nat) : POut Unit :=
  if amount ≤ ctok then .ok () (ctok - amount)
  else .panic

/-- `accept` from src/parser.rs lines 162-168. -/
def accept (tokens : List Token) (ctok : Nat) (typ : TokenType) : POut Bool :=
  pbind (next tokens ctok) fun t c' =>
    if t.typ = typ then .ok true c'
    else pbind (rewind c' 1) fun _ c'' => .ok false c''

/-- `accept_str` from src/parser.rs lines 170-180. -/
def accept_str (tokens : List Token) (ctok : Nat) : POut Bool :=
  pbind (next tokens ctok) fun t c' =>
    match t.typ with
    | .String _ => .ok true c'
    | _ => pbind (rewind c' 1) fun _ c'' => .ok false c''

/-- `accept_num` from src/parser.rs lines 182-192. -/
def accept_num (tokens : List Token) (ctok : Nat) : POut Bool :=
  pbind (next tokens ctok) fun t c' =>
    match t.typ with
    | .Number _ => .ok true c'
    | _ => pbind (rewind c' 1) fun _ c'' => .ok false c''

/-- `accept_bool` from src/parser.rs lines 194-204. -/
def accept_bool (tokens : List Token) (ctok : Nat) : POut Bool :=
  pbind (next tokens ctok) fun t c' =>
    match t.typ with
    | .Boolean _ => .ok true c'
    | _ => pbind (rewind c' 1) fun _ c'' => .ok false c''

/-- `expect_num` from src/parser.rs lines 206-219. -/
def expect_num (tokens : List Token) (ctok : Nat) : POut ℚ :=
  pbind (next tokens ctok) fun t c' =>
    match t.typ with
    | .Number val =>
      match parseF64 val with
      | some q => .ok q c'
      | none => .error (.numFormat val)
    | _ =>
      pbind (rewind c' 1) fun _ c'' =>
        pbind (last tokens c'') fun lt _ =>
          .error (.unexpectedNum lt.typ lt.loc)

/-- The register validation of the `iload` arm, src/parser.rs lines 271-279:
integrality check (`reg != reg.trunc()`, i.e. the exact value has
denominator 1), the saturating cast to `u64`, and the `(0..16)` range check.
`loc` is the `last(state).loc` used by both error messages. -/
def iloadRegCheck (q : ℚ) (loc : Loc) : Except PErr Nat :=
  if q.den ≠ 1 then .error (.regNotInt q loc)
  else if ¬(rsF64toU64 q < 16) then .error (.regRange (rsF64toU64 q) loc)
  else .ok (rsF64toU64 q)

mutual

/-- `parse_value` from src/parser.rs lines 221-257.  The `else unreachable!()`
of the literal arms is modelled as `panic`.  `fuel` bounds recursion depth. -/
def parse_value (tokens : List Token) : Nat → Nat → POut Value
  | 0, _ => .fuelOut
  | fuel + 1, ctok =>
    pbind (accept_num tokens ctok) fun b1 c1 =>
    if b1 then
      pbind (last tokens c1) fun t _ =>
        match t.typ with
        | .Number val =>
          (match parseF64 val with
           | some q => .ok (.Number q) c1
           | none => .error (.numFormat val))
        | _ => .panic
    else
      pbind (accept_str tokens c1) fun b2 c2 =>
      if b2 then
        pbind (last tokens c2) fun t _ =>
          match t.typ with
          | .String val => .ok (.String val) c2
          | _ => .panic
      else
        pbind (accept_bool tokens c2) fun b3 c3 =>
        if b3 then
          pbind (last tokens c3) fun t _ =>
            match t.typ with
            | .Boolean val => .ok (.Boolean val) c3
            | _ => .panic
        else
          pbind (accept tokens c3 .LeftSquare) fun b4 c4 =>
          if b4 then
            pbind (parseArrLoop tokens fuel c4 []) fun vs c5 => .ok (.Array vs) c5
          else
            pbind (accept tokens c4 .LeftCurly) fun b5 c5 =>
            if b5 then
              pbind (parseFunLoop tokens fuel c5 []) fun cs c6 => .ok (.Function cs) c6
            else
              pbind (accept tokens c5 .Nil) fun b6 c6 =>
              if b6 then .ok .Nil c6
              else
                pbind (next tokens c6) fun t _ => .error (.unexpected t.typ t.loc)
termination_by structural fuel _ => fuel

/-- The `while !accept(RightSquare)` loop of src/parser.rs lines 235-239. -/
def parseArrLoop (tokens : List Token) : Nat → Nat → List Value → POut (List Value)
  | 0, _, _ => .fuelOut
  | fuel + 1, ctok, acc =>
    pbind (accept tokens ctok .RightSquare) fun b c' =>
    if b then .ok acc c'
    else
      pbind (parse_value tokens fuel c') fun v c2 =>
        parseArrLoop tokens fuel c2 (acc ++ [v])
termination_by structural fuel _ _ => fuel

/-- The `while !accept(RightCurly)` loop of src/parser.rs lines 243-247. -/
def parseFunLoop (tokens : List Token) : Nat → Nat → List Command → POut (List Command)
  | 0, _, _ => .fuelOut
  | fuel + 1, ctok, acc =>
    pbind (accept tokens ctok .RightCurly) fun b c' =>
    if b then .ok acc c'
    else
      pbind (parse_command tokens fuel c') fun cmd c2 =>
        parseFunLoop tokens fuel c2 (acc ++ [cmd])
termination_by structural fuel _ _ => fuel

/-- `parse_command` from src/parser.rs lines 259-322.  The source's
`TokenType::If` arm (line 291) refers to a variant that does not exist in
the `TokenType` declaration of src/tokenizer.rs and so cannot be written
here; every remaining token kind falls to the final `unexpected` arm.  The
`iload` arm's duplicated `last(state).loc` reads are factored through
`iloadRegCheck`; the `reg as u8` cast at line 283 is the `% 256`. -/
def parse_command (tokens : List Token) : Nat → Nat → POut Command
  | 0, _ => .fuelOut
  | fuel + 1, ctok =>
    pbind (next tokens ctok) fun t c' =>
    match t.typ with
    | .Push =>
      pbind (parse_value tokens fuel c') fun v c2 => .ok (.Push v) c2
    | .ILoad =>
      pbind (expect_num tokens c') fun q c2 =>
        pbind (last tokens c2) fun lt _ =>
          match iloadRegCheck q lt.loc with
          | .error e => .error e
          | .ok reg =>
            pbind (parse_value tokens fuel c2) fun v c3 =>
              .ok (.ILoad (reg % 256) v) c3
    | .Dup => .ok .Dup c'
    | .Swap => .ok .Swap c'
    | .Load => .ok .Load c'
    | .Drop => .ok .Drop c'
    | .Query => .ok .Query c'
    | .Info => .ok .Info c'
    | .Each => .ok .Each c'
    | .Reduce => .ok .Reduce c'
    | .Reverse => .ok .Reverse c'
    | .Map => .ok .Map c'
    | .Filter => .ok .Filter c'
    | .Call => .ok .Call c'
    | .ToStr => .ok .ToStr c'
    | .ToNum => .ok .ToNum c'
    | .Add => .ok .Add c'
    | .Sub => .ok .Sub c'
    | .Mul => .ok .Mul c'
    | .Div => .ok .Div c'
    | .Mod => .ok .Mod c'
    | .Eq => .ok .Eq c'
    | .NotEq => .ok .NotEq c'
    | .Greater => .ok .Greater c'
    | .GreaterEq => .ok .GreaterEq c'
    | .Less => .ok .Less c'
    | .LessEq => .ok .LessEq c'
    | .And => .ok .And c'
    | .Or => .ok .Or c'
    | .Not => .ok .Not c'
    | .Concat => .ok .Concat c'
    | .Match => .ok .Match c'
    | .Split => .ok .Split c'
    | .Iota => .ok .Iota c'
    | _ => .error (.unexpected t.typ t.loc)
termination_by structural fuel _ => fuel

/-- The `while !accept(Eof)` loop of `parse`, src/parser.rs lines 331-333. -/
def parseLoop (tokens : List Token) : Nat → Nat → List Command → POut (List Command)
  | 0, _, _ => .fuelOut
  | fuel + 1, ctok, acc =>
    pbind (accept tokens ctok .Eof) fun b c' =>
    if b then .ok acc c'
    else
      pbind (parse_command tokens fuel c') fun cmd c2 =>
        parseLoop tokens fuel c2 (acc ++ [cmd])
termination_by structural fuel _ _ => fuel

end

/-- `parse` from src/parser.rs lines 324-336: run the command loop from
cursor 0.  The fuel `4 * tokens.length + 4` dominates the total number of
recursive entries the source can make on `tokens`. -/
def parse (tokens : List Token) : POut (List Command) :=
  parseLoop tokens (4 * tokens.length + 4) 0 []

/-- The lex-then-parse pipeline on source text, used to state end-to-end
facts: `tokenize` then, on lexical success, `parse`. -/
def lexThenParse (text : String) (filename : String) :
    Option (Except LexErr (POut (List Command))) :=
  (tokenize text.data filename).map (fun r => r.map parse)

/-! ## Encoder (src/codegen.rs)

Bytes are modelled as `Nat` values `< 256`; the output buffer is a
`List Nat`.  The unsafe discriminant read
`*<*const _>::from(&value).cast::<u8>()` (src/codegen.rs lines 7, 37) reads
the `repr(u8)` discriminant, which Rust defines to be the variant's position
in the declaration, starting at 0; it is modelled by the explicit ordinal
functions `valueTag` / `commandTag`.  `f64::to_le_bytes` (line 11) is
abstracted as the argument `f64le` (its 8-byte little-endian IEEE-754
serialization is bit-level float behavior outside this embedding). -/

/-- The `repr(u8)` discriminant of `Value` (declaration order of
src/parser.rs lines 11-20). -/
def valueTag : Value → Nat
  | .Nil => 0
  | .Number _ => 1
  | .String _ => 2
  | .Boolean _ => 3
  | .Function _ => 4
  | .Array _ => 5

/-- The `repr(u8)` discriminant of `Command` (declaration order of
src/parser.rs lines 22-60). -/
def commandTag : Command → Nat
  | .Push _ => 0
  | .Dup => 1
  | .Swap => 2
  | .ILoad _ _ => 3
  | .Load => 4
  | .Drop => 5
  | .Query => 6
  | .Info => 7
  | .If => 8
  | .Each => 9
  | .Reduce => 10
  | .Reverse => 11
  | .Map => 12
  | .Filter => 13
  | .Call => 14
  | .ToStr => 15
  | .ToNum => 16
  | .Add => 17
  | .Sub => 18
  | .Mul => 19
  | .Div => 20
  | .Mod => 21
  | .Eq => 22
  | .NotEq => 23
  | .Greater => 24
  | .GreaterEq => 25
  | .Less => 26
  | .LessEq => 27
  | .And => 28
  | .Or => 29
  | .Not => 30
  | .Concat => 31
  | .Match => 32
  | .Split => 33
  | .Iota => 34

/-- `BufMut::put_u64_le` of a length cast `as u64`: the 8 little-endian bytes
of `n % 2^64` (src/codegen.rs lines 13, 18, 22). -/
def u64le (n : Nat) : List Nat :=
  [n % 256, n / 256 % 256, n / 256 ^ 2 % 256, n / 256 ^ 3 % 256,
   n / 256 ^ 4 % 256, n / 256 ^ 5 % 256, n / 256 ^ 6 % 256, n / 256 ^ 7 % 256]

/-- `str::as_bytes` / `String::len` (src/codegen.rs lines 13-14): the UTF-8
bytes of a string. -/
def utf8Bytes (s : String) : List Nat :=
  (s.data.flatMap String.utf8EncodeChar).map (fun b => b.toNat)

mutual

/-- `generate_value` from src/codegen.rs lines 4-31: one tag byte (the
discriminant), then the variant's payload. -/
def generate_value (f64le : ℚ → List Nat) : Value → List Nat
  | .Nil => valueTag .Nil :: []
  | .Number val => valueTag (.Number val) :: f64le val
  | .String val =>
    valueTag (.String val) :: (u64le (utf8Bytes val).length ++ utf8Bytes val)
  | .Boolean val => valueTag (.Boolean val) :: [if val then 1 else 0]
  | .Function commands =>
    valueTag (.Function commands) ::
      (u64le commands.length ++ generate f64le commands)
  | .Array values =>
    valueTag (.Array values) ::
      (u64le values.length ++ generateValues f64le values)

/-- The `for value in values` loop of src/codegen.rs lines 24-26. -/
def generateValues (f64le : ℚ → List Nat) : List Value → List Nat
  | [] => []
  | v :: vs => generate_value f64le v ++ generateValues f64le vs

/-- `generate` from src/codegen.rs lines 33-50: for each command one tag
byte, then `Push`'s encoded value, or `ILoad`'s register byte (`u8`,
hence `% 256`) and encoded value, or nothing. -/
def generate (f64le : ℚ → List Nat) : List Command → List Nat
  | [] => []
  | cmd :: cmds =>
    (commandTag cmd ::
      (match cmd with
       | .Push value => generate_value f64le value
       | .ILoad reg value => reg % 256 :: generate_value f64le value
       | _ => [])) ++ generate f64le cmds

end

/-! The register invariant: every `ILoad` anywhere in a `Command`/`Value`
tree has register `< 16` (registers are integers by construction, being
`Nat`-valued). -/

mutual

def valueRegOk : Value → Bool
  | .Function cmds => cmdsRegOk cmds
  | .Array vs => valuesRegOk vs
  | _ => true

def valuesRegOk : List Value → Bool
  | [] => true
  | v :: vs => valueRegOk v && valuesRegOk vs

def cmdRegOk : Command → Bool
  | .Push v => valueRegOk v
  | .ILoad r v => decide (r < 16) && valueRegOk v
  | _ => true

def cmdsRegOk : List Command → Bool
  | [] => true
  | c :: cs => cmdRegOk c && cmdsRegOk cs

end

/-- The token-vector shape `tokenize` guarantees: some non-`Eof` tokens
closed by exactly one final `Eof` sentinel. -/
def GoodToks (tokens : List Token) : Prop :=
  ∃ pre loc, tokens = pre ++ [⟨.Eof, loc⟩] ∧ ∀ t ∈ pre, t.typ ≠ .Eof

/-- The parser's cursor invariant: the cursor is within bounds and has only
passed non-`Eof` tokens. -/
def Inv (tokens : List Token) (ctok : Nat) : Prop :=
  ctok ≤ tokens.length ∧
  ∀ j (hj : j < tokens.length), j < ctok → (tokens.get ⟨j, hj⟩).typ ≠ .Eof

/-! ## Encoder refinement: the spec's layout table -/

mutual

/-- The wire-format layout table of spec 4.3, transcribed: one tag byte
equal to the variant's declared ordinal, then the tabulated payload. -/
def specEncodeValue (f64le : ℚ → List Nat) : Value → List Nat
  | .Nil => [0]
  | .Number q => 1 :: f64le q
  | .String sv => 2 :: (u64le (utf8Bytes sv).length ++ utf8Bytes sv)
  | .Boolean b => 3 :: [if b then 1 else 0]
  | .Function cmds => 4 :: (u64le cmds.length ++ specEncodeCommands f64le cmds)
  | .Array vs => 5 :: (u64le vs.length ++ specEncodeValues f64le vs)

/-- Array payload per the table: each element's full recursive encoding,
concatenated. -/
def specEncodeValues (f64le : ℚ → List Nat) : List Value → List Nat
  | [] => []
  | v :: vs => specEncodeValue f64le v ++ specEncodeValues f64le vs

/-- Command layout per the table: `Push` = tag 0 then encoded value,
`ILoad` = tag 3 then one register byte then encoded value, zero-payload
opcodes = the tag byte alone. -/
def specEncodeCommand (f64le : ℚ → List Nat) : Command → List Nat
  | .Push v => 0 :: specEncodeValue f64le v
  | .ILoad r v => 3 :: (r % 256) :: specEncodeValue f64le v
  | c => [commandTag c]

/-- Command-sequence payload: concatenated command encodings. -/
def specEncodeCommands (f64le : ℚ → List Nat) : List Command → List Nat
  | [] => []
  | c :: cs => specEncodeCommand f64le c ++ specEncodeCommands f64le cs

end

/-! ## Tokenizer lemmas -/

theorem token_map_ne_eof {c : Char} {t : TokenType} (h : token_map c = some t) :
    t ≠ .Eof := by
  unfold token_map at h
  split_ifs at h
  all_goals (try (injection h with h; subst h))
  all_goals simp_all

theorem op_map_ne_eof {s : String} {t : TokenType} (h : op_map s = some t) :
    t ≠ .Eof := by
  intro hte
  subst hte
  rw [op_map, List.lookup_eq_some_iff] at h
  obtain ⟨l1, l2, hl, -⟩ := h
  have hmem : TokenType.Eof ∈ op_list.map Prod.snd := by
    rw [hl]
    simp
  revert hmem
  decide

theorem scanNum_rest (rs : List Char) (fd : Bool) :
    (scanNum rs fd).2.Sublist rs := by
  induction rs generalizing fd with
  | nil => simp [scanNum]
  | cons ch rs ih =>
    rw [scanNum]
    split_ifs with h1 h2
    · exact (ih fd).trans (List.sublist_cons_self ch rs)
    · exact (ih true).trans (List.sublist_cons_self ch rs)
    · simp

theorem scanDigits_rest (rs : List Char) :
    (scanDigits rs).2.Sublist rs := by
  induction rs with
  | nil => simp [scanDigits]
  | cons ch rs ih =>
    rw [scanDigits]
    split_ifs with h1
    · exact ih.trans (List.sublist_cons_self ch rs)
    · simp

theorem scanWord_rest (rs : List Char) :
    (scanWord rs).2.Sublist rs := by
  induction rs with
  | nil => simp [scanWord]
  | cons ch rs ih =>
    rw [scanWord]
    split_ifs with h1
    · exact ih.trans (List.sublist_cons_self ch rs)
    · simp

theorem scanStr_rest (rs : List Char) :
    (scanStr rs).2.Sublist rs := by
  induction rs with
  | nil => simp [scanStr]
  | cons ch rs ih =>
    rw [scanStr]
    split_ifs with h1
    · exact ih.trans (List.sublist_cons_self ch rs)
    · simp

/-! Branch equations for `tokStep`, one per arm of the outer loop's
if-else chain. -/

theorem tokStep_eq_cr (fn : String) (rs : List Char) (line col : Nat) :
    tokStep fn '\r' rs line col =
      .ok ([], if rs.head? = some '\n' then rs.tail else rs, line + 1, 0) := by
  unfold tokStep
  rw [if_pos rfl]

theorem tokStep_eq_lf (fn : String) (rs : List Char) (line col : Nat) :
    tokStep fn '\n' rs line col = .ok ([], rs, line + 1, 0) := by
  unfold tokStep
  rw [if_neg (by decide), if_pos rfl]

theorem tokStep_eq_semi (fn : String) (rs : List Char) (line col : Nat) :
    tokStep fn ';' rs line col =
      .ok ([], rs.dropWhile (fun nc => ¬isLineTerm nc), line, col) := by
  unfold tokStep
  rw [if_neg (by decide), if_neg (by decide), if_pos rfl]

theorem tokStep_eq_ws {c : Char} (fn : String) (rs : List Char) (line col : Nat)
    (h1 : c ≠ '\r') (h2 : c ≠ '\n') (h3 : c ≠ ';') (h4 : rsIsWhitespace c = true) :
    tokStep fn c rs line col = .ok ([], rs, line, col) := by
  unfold tokStep
  rw [if_neg h1, if_neg h2, if_neg h3, if_pos h4]

theorem tokStep_eq_bracket {c : Char} {t : TokenType} (fn : String)
    (rs : List Char) (line col : Nat)
    (h1 : c ≠ '\r') (h2 : c ≠ '\n') (h3 : c ≠ ';') (h4 : rsIsWhitespace c = false)
    (h5 : token_map c = some t) :
    tokStep fn c rs line col = .ok ([⟨t, ⟨line, col, fn⟩⟩], rs, line, col) := by
  unfold tokStep
  rw [if_neg h1, if_neg h2, if_neg h3, if_neg (by simp [h4]),
      dif_pos (by simp [h5])]
  simp [h5]

theorem tokStep_eq_digit {c : Char} (fn : String) (rs : List Char) (line col : Nat)
    (h1 : c ≠ '\r') (h2 : c ≠ '\n') (h3 : c ≠ ';') (h4 : rsIsWhitespace c = false)
    (h5 : token_map c = none) (h6 : c.isDigit = true) :
    tokStep fn c rs line col =
      .ok ([⟨.Number (String.mk (c :: (scanNum rs false).1)), ⟨line, col, fn⟩⟩],
           (scanNum rs false).2, line, col + (scanNum rs false).1.length) := by
  unfold tokStep
  rw [if_neg h1, if_neg h2, if_neg h3, if_neg (by simp [h4]),
      dif_neg (by simp [h5]), if_pos h6]

theorem tokStep_eq_dot (fn : String) (rs : List Char) (line col : Nat) :
    tokStep fn '.' rs line col =
      .ok ([⟨.Number (String.mk ('.' :: (scanDigits rs).1)), ⟨line, col, fn⟩⟩],
           (scanDigits rs).2, line, col + (scanDigits rs).1.length) := by
  unfold tokStep
  rw [if_neg (by decide), if_neg (by decide), if_neg (by decide),
      if_neg (by decide), dif_neg (by decide), if_neg (by decide), if_pos rfl]

theorem tokStep_eq_minus_num (fn : String) (rs : List Char) (line col : Nat)
    (h : minusStartsNum rs = true) :
    tokStep fn '-' rs line col =
      .ok ([⟨.Number (String.mk ('-' :: (scanNum rs false).1)), ⟨line, col, fn⟩⟩],
           (scanNum rs false).2, line, col + (scanNum rs false).1.length) := by
  unfold tokStep
  rw [if_neg (by decide), if_neg (by decide), if_neg (by decide),
      if_neg (by decide), dif_neg (by decide), if_neg (by decide),
      if_neg (by decide), if_pos rfl, if_pos h]

theorem tokStep_eq_minus_word (fn : String) (rs : List Char) (line col : Nat)
    (h : minusStartsNum rs = false) :
    tokStep fn '-' rs line col =
      .ok ((match op_map (String.mk ('-' :: (scanWord rs).1)) with
            | some t => [⟨t, ⟨line, col, fn⟩⟩]
            | none => []),
           (scanWord rs).2, line, col + (scanWord rs).1.length) := by
  unfold tokStep
  rw [if_neg (by decide), if_neg (by decide), if_neg (by decide),
      if_neg (by decide), dif_neg (by decide), if_neg (by decide),
      if_neg (by decide), if_pos rfl, if_neg (by simp [h])]

theorem tokStep_eq_quote_err (fn : String) (rs : List Char) (line col : Nat)
    (h : (scanStr rs).2.isEmpty = true) :
    tokStep fn '"' rs line col =
      .error (.unterminatedString ⟨line, col, fn⟩) := by
  unfold tokStep
  rw [if_neg (by decide), if_neg (by decide), if_neg (by decide),
      if_neg (by decide), dif_neg (by decide), if_neg (by decide),
      if_neg (by decide), if_neg (by decide), if_pos rfl, if_pos h]

theorem tokStep_eq_quote_ok (fn : String) (rs : List Char) (line col : Nat)
    (h : (scanStr rs).2.isEmpty = false) :
    tokStep fn '"' rs line col =
      .ok ([⟨.String (String.mk (scanStr rs).1), ⟨line, col, fn⟩⟩],
           (scanStr rs).2.tail, line, col + (scanStr rs).1.length + 1) := by
  unfold tokStep
  rw [if_neg (by decide), if_neg (by decide), if_neg (by decide),
      if_neg (by decide), dif_neg (by decide), if_neg (by decide),
      if_neg (by decide), if_neg (by decide), if_pos rfl, if_neg (by simp [h])]

theorem tokStep_eq_word {c : Char} (fn : String) (rs : List Char) (line col : Nat)
    (h1 : c ≠ '\r') (h2 : c ≠ '\n') (h3 : c ≠ ';') (h4 : rsIsWhitespace c = false)
    (h5 : token_map c = none) (h6 : c.isDigit = false) (h7 : c ≠ '.')
    (h8 : c ≠ '-') (h9 : c ≠ '"') :
    tokStep fn c rs line col =
      .ok ((match op_map (String.mk (c :: (scanWord rs).1)) with
            | some t => [⟨t, ⟨line, col, fn⟩⟩]
            | none => []),
           (scanWord rs).2, line, col + (scanWord rs).1.length) := by
  unfold tokStep
  rw [if_neg h1, if_neg h2, if_neg h3, if_neg (by simp [h4]),
      dif_neg (by simp [h5]), if_neg (by simp [h6]), if_neg h7, if_neg h8,
      if_neg h9]

/-- Master case analysis for one scanner step: a step either succeeds — with a
remainder that is a sublist of `rs`, never-`Eof` emitted tokens, and the line
counter only growing — or fails, exactly at an unterminated string: the
current character is `"` and the string scan exhausts the input. -/
theorem tokStep_shape (fn : String) (c : Char) (rs : List Char) (line col : Nat) :
    (∃ ts rest l' c', tokStep fn c rs line col = .ok (ts, rest, l', c') ∧
      rest.Sublist rs ∧ (∀ t ∈ ts, t.typ ≠ .Eof)) ∨
    (c = '"' ∧ (scanStr rs).2.isEmpty = true ∧
      tokStep fn c rs line col = .error (.unterminatedString ⟨line, col, fn⟩)) := by
  by_cases h1 : c = '\r'
  · subst h1
    refine .inl ⟨_, _, _, _, tokStep_eq_cr fn rs line col, ?_, by simp⟩
    split_ifs
    · exact List.tail_sublist rs
    · exact List.Sublist.refl rs
  by_cases h2 : c = '\n'
  · subst h2
    exact .inl ⟨_, _, _, _, tokStep_eq_lf fn rs line col,
      List.Sublist.refl rs, by simp⟩
  by_cases h3 : c = ';'
  · subst h3
    exact .inl ⟨_, _, _, _, tokStep_eq_semi fn rs line col,
      List.dropWhile_sublist _, by simp⟩
  by_cases h4 : rsIsWhitespace c
  · exact .inl ⟨_, _, _, _, tokStep_eq_ws fn rs line col h1 h2 h3 h4,
      List.Sublist.refl rs, by simp⟩
  rw [Bool.not_eq_true] at h4
  cases h5 : token_map c with
  | some t =>
    refine .inl ⟨_, _, _, _, tokStep_eq_bracket fn rs line col h1 h2 h3 h4 h5,
      List.Sublist.refl rs, ?_⟩
    simpa using token_map_ne_eof h5
  | none =>
  by_cases h6 : c.isDigit
  · exact .inl ⟨_, _, _, _, tokStep_eq_digit fn rs line col h1 h2 h3 h4 h5 h6,
      scanNum_rest rs false, by simp⟩
  rw [Bool.not_eq_true] at h6
  by_cases h7 : c = '.'
  · subst h7
    exact .inl ⟨_, _, _, _, tokStep_eq_dot fn rs line col,
      scanDigits_rest rs, by simp⟩
  by_cases h8 : c = '-'
  · subst h8
    cases hm : minusStartsNum rs with
    | true =>
      exact .inl ⟨_, _, _, _, tokStep_eq_minus_num fn rs line col hm,
        scanNum_rest rs false, by simp⟩
    | false =>
      refine .inl ⟨_, _, _, _, tokStep_eq_minus_word fn rs line col hm,
        scanWord_rest rs, ?_⟩
      cases ho : op_map (String.mk ('-' :: (scanWord rs).1)) with
      | some t => simpa using op_map_ne_eof ho
      | none => simp
  by_cases h9 : c = '"'
  · subst h9
    cases hq : (scanStr rs).2.isEmpty with
    | true => exact .inr ⟨rfl, hq ▸ rfl, tokStep_eq_quote_err fn rs line col hq⟩
    | false =>
      exact .inl ⟨_, _, _, _, tokStep_eq_quote_ok fn rs line col hq,
        (List.tail_sublist _).trans (scanStr_rest rs), by simp⟩
  · refine .inl ⟨_, _, _, _,
      tokStep_eq_word fn rs line col h1 h2 h3 h4 h5 h6 h7 h8 h9,
      scanWord_rest rs, ?_⟩
    cases ho : op_map (String.mk (c :: (scanWord rs).1)) with
    | some t => simpa using op_map_ne_eof ho
    | none => simp

/-- Fuel sufficiency for the scanner loop: since every outer iteration
consumes at least one character, fuel equal to the remaining length always
reaches the end of the loop. -/
theorem tokLoop_isSome (fn : String) :
    ∀ fuel rest line col acc, rest.length ≤ fuel →
      (tokLoop fn fuel rest line col acc).isSome = true := by
  intro fuel
  induction fuel with
  | zero =>
    intro rest line col acc h
    rw [List.length_eq_zero.mp (Nat.le_zero.mp h)]
    simp [tokLoop]
  | succ fuel ih =>
    intro rest line col acc h
    cases rest with
    | nil => simp [tokLoop]
    | cons c rs =>
      rcases tokStep_shape fn c rs line col with
        ⟨ts, rest', l', c', heq, hsub, -⟩ | ⟨-, -, heq⟩
      · rw [tokLoop, heq]
        exact ih rest' _ _ _ (le_trans hsub.length_le (by simpa using h))
      · rw [tokLoop, heq]
        simp

/-- Any two sufficient fuels drive the scanner loop to the same result. -/
theorem tokLoop_agree (fn : String) :
    ∀ fuel₁ fuel₂ rest line col acc, rest.length ≤ fuel₁ → rest.length ≤ fuel₂ →
      tokLoop fn fuel₁ rest line col acc = tokLoop fn fuel₂ rest line col acc := by
  intro fuel₁
  induction fuel₁ with
  | zero =>
    intro fuel₂ rest line col acc h1 h2
    rw [List.length_eq_zero.mp (Nat.le_zero.mp h1)]
    cases fuel₂ <;> rfl
  | succ fuel₁ ih =>
    intro fuel₂ rest line col acc h1 h2
    cases rest with
    | nil => cases fuel₂ <;> rfl
    | cons c rs =>
      cases fuel₂ with
      | zero => simp at h2
      | succ fuel₂ =>
        rw [tokLoop, tokLoop]
        rcases tokStep_shape fn c rs line col with
          ⟨ts, rest', l', c', heq, hsub, -⟩ | ⟨-, -, heq⟩
        · rw [heq]
          exact ih fuel₂ rest' _ _ _
            (le_trans hsub.length_le (by simpa using h1))
            (le_trans hsub.length_le (by simpa using h2))
        · rw [heq]

/-- Shape of a successful lex: starting from an accumulator free of `Eof`,
the token list the loop returns is the accumulator extended by non-`Eof`
tokens with exactly one final `Eof` appended. -/
theorem tokLoop_ok_shape (fn : String) :
    ∀ fuel rest line col acc toks, (∀ t ∈ acc, t.typ ≠ .Eof) →
      tokLoop fn fuel rest line col acc = some (.ok toks) →
      ∃ pre loc, toks = pre ++ [⟨.Eof, loc⟩] ∧ ∀ t ∈ pre, t.typ ≠ .Eof := by
  intro fuel
  induction fuel with
  | zero =>
    intro rest line col acc toks hacc h
    cases rest with
    | nil =>
      rw [tokLoop] at h
      injection h with h
      injection h with h
      exact ⟨acc, _, h.symm, hacc⟩
    | cons c rs => simp [tokLoop] at h
  | succ fuel ih =>
    intro rest line col acc toks hacc h
    cases rest with
    | nil =>
      rw [tokLoop] at h
      injection h with h
      injection h with h
      exact ⟨acc, _, h.symm, hacc⟩
    | cons c rs =>
      rcases tokStep_shape fn c rs line col with
        ⟨ts, rest', l', c', heq, -, hne⟩ | ⟨-, -, heq⟩
      · rw [tokLoop, heq] at h
        refine ih rest' l' c' (acc ++ ts) toks ?_ h
        intro t ht
        rcases List.mem_append.mp ht with h' | h'
        · exact hacc t h'
        · exact hne t h'
      · rw [tokLoop, heq] at h
        simp at h

/-- If the remaining input contains no `"`, the scanner loop cannot fail. -/
theorem tokLoop_no_quote (fn : String) :
    ∀ fuel rest line col acc, '"' ∉ rest →
      ∀ e, tokLoop fn fuel rest line col acc ≠ some (.error e) := by
  intro fuel
  induction fuel with
  | zero =>
    intro rest line col acc hq e
    cases rest with
    | nil => simp [tokLoop]
    | cons c rs => simp [tokLoop]
  | succ fuel ih =>
    intro rest line col acc hq e
    cases rest with
    | nil => simp [tokLoop]
    | cons c rs =>
      rcases tokStep_shape fn c rs line col with
        ⟨ts, rest', l', c', heq, hsub, -⟩ | ⟨hc, -, -⟩
      · rw [tokLoop, heq]
        refine ih rest' l' c' (acc ++ ts) ?_ e
        intro hmem
        exact hq (List.mem_cons_of_mem c (hsub.mem hmem))
      · exact absurd (hc ▸ List.mem_cons_self c rs) hq

/-- A line comment's body contains no terminator, so the comment scan stops
exactly at the following terminator. -/
theorem dropWhile_comment {note : List Char}
    (h : ∀ ch ∈ note, isLineTerm ch = false) (rest : List Char) :
    (note ++ '\n' :: rest).dropWhile (fun nc => ¬isLineTerm nc) = '\n' :: rest := by
  induction note with
  | nil => simp [List.dropWhile, isLineTerm]
  | cons ch note ih =>
    rw [List.cons_append, List.dropWhile_cons]
    rw [if_pos (by simp [h ch (List.mem_cons_self ch note)])]
    exact ih (fun ch' hm => h ch' (List.mem_cons_of_mem ch hm))

/-- `tokenize` always returns (fuel equal to the input length suffices). -/
theorem tokenize_isSome (chars : List Char) (fn : String) :
    (tokenize chars fn).isSome = true := by
  unfold tokenize shebangStrip
  split_ifs
  · exact tokLoop_isSome fn chars.length _ 1 1 []
      ((List.dropWhile_sublist _).length_le)
  · exact tokLoop_isSome fn chars.length chars 1 1 [] le_rfl

/-- Shape of a successful `tokenize`: a (possibly empty) run of non-`Eof`
tokens closed by exactly one final `Eof` token. -/
theorem tokenize_ok_shape {chars : List Char} {fn : String} {toks : List Token}
    (h : tokenize chars fn = some (.ok toks)) :
    ∃ pre loc, toks = pre ++ [⟨.Eof, loc⟩] ∧ ∀ t ∈ pre, t.typ ≠ .Eof := by
  unfold tokenize shebangStrip at h
  split_ifs at h
  · exact tokLoop_ok_shape fn chars.length _ 1 1 [] toks (by simp) h
  · exact tokLoop_ok_shape fn chars.length chars 1 1 [] toks (by simp) h

/-- `tokenize` cannot fail on an input without a `"` character. -/
theorem tokenize_no_quote {chars : List Char} {fn : String}
    (h : '"' ∉ chars) : ∀ e, tokenize chars fn ≠ some (.error e) := by
  unfold tokenize shebangStrip
  split_ifs
  · intro e
    refine tokLoop_no_quote fn chars.length _ 1 1 [] ?_ e
    intro hmem
    exact h ((List.dropWhile_sublist _).mem hmem)
  · exact tokLoop_no_quote fn chars.length chars 1 1 [] h

/-- Dropping a leading `; ...` comment line (no terminator inside the
comment body) does not affect `tokenize` at all. -/
theorem tokenize_comment (note rest : List Char) (fn : String)
    (h : ∀ ch ∈ note, isLineTerm ch = false) :
    tokenize (';' :: (note ++ '\n' :: rest)) fn = tokenize ('\n' :: rest) fn := by
  unfold tokenize shebangStrip
  rw [if_neg (by simp), if_neg (by simp)]
  rw [List.length_cons, tokLoop, tokStep_eq_semi, dropWhile_comment h rest]
  exact tokLoop_agree fn _ _ ('\n' :: rest) 1 1 [] (by simp) le_rfl


theorem shebangStrip_length (chars : List Char) :
    (shebangStrip chars).length ≤ chars.length := by
  unfold shebangStrip
  split_ifs
  · exact (List.dropWhile_sublist _).length_le
  · exact le_rfl

theorem scanStr_snd_empty_iff (rs : List Char) :
    (scanStr rs).2.isEmpty = true ↔ '"' ∉ rs := by
  induction rs with
  | nil => simp [scanStr]
  | cons ch rs ih =>
    rw [scanStr]
    split_ifs with h1
    · simp only [List.mem_cons]
      rw [ih]
      constructor
      · intro h hm
        rcases hm with hm | hm
        · exact h1 hm.symm
        · exact h hm
      · intro h hm
        exact h (Or.inr hm)
    · rw [not_not] at h1
      subst h1
      simp

theorem tokStep_ok_rest_sublist {fn : String} {c : Char} {rs : List Char}
    {line col : Nat} {ts : List Token} {rest : List Char} {l' c' : Nat}
    (h : tokStep fn c rs line col = .ok (ts, rest, l', c')) :
    rest.Sublist rs := by
  rcases tokStep_shape fn c rs line col with
    ⟨ts2, r2, l2, c2, heq, hsub, -⟩ | ⟨-, -, heq⟩
  · rw [heq] at h
    injection h with h
    obtain ⟨-, h2, -, -⟩ : ts2 = ts ∧ r2 = rest ∧ l2 = l' ∧ c2 = c' := by
      simpa [Prod.ext_iff] using h
    exact h2 ▸ hsub
  · rw [heq] at h
    cases h

/-- Transport along reachability: with sufficient fuel, the loop's value at
a state equals its value at any state the scan reaches from it. -/
theorem tokLoop_reach (fn : String) {r1 : List Char} {l1 c1 : Nat}
    {r2 : List Char} {l2 c2 : Nat}
    (h : ScanReach fn r1 l1 c1 r2 l2 c2) :
    ∀ fuel acc, r1.length ≤ fuel →
      ∃ fuel2 acc2, r2.length ≤ fuel2 ∧
        tokLoop fn fuel r1 l1 c1 acc = tokLoop fn fuel2 r2 l2 c2 acc2 := by
  induction h with
  | refl rest line col => exact fun fuel acc hf => ⟨fuel, acc, hf, rfl⟩
  | step hstep hreach ih =>
    intro fuel acc hf
    cases fuel with
    | zero => simp at hf
    | succ fuel =>
      rw [tokLoop, hstep]
      exact ih fuel _
        (le_trans (tokStep_ok_rest_sublist hstep).length_le (by simpa using hf))

/-- Every loop error arises at a reached state whose head is an opening
quote with no closing quote in the remainder, and carries exactly that
state's location. -/
theorem tokLoop_err_reach (fn : String) :
    ∀ fuel rest line col acc e,
      tokLoop fn fuel rest line col acc = some (.error e) →
      ∃ tail l2 c2, ScanReach fn rest line col ('"' :: tail) l2 c2 ∧
        '"' ∉ tail ∧ e = .unterminatedString ⟨l2, c2, fn⟩ := by
  intro fuel
  induction fuel with
  | zero =>
    intro rest line col acc e h
    cases rest with
    | nil =>
      rw [tokLoop] at h
      injection h with h
      injection h
    | cons c rs => simp [tokLoop] at h
  | succ fuel ih =>
    intro rest line col acc e h
    cases rest with
    | nil =>
      rw [tokLoop] at h
      injection h with h
      injection h
    | cons c rs =>
      rcases tokStep_shape fn c rs line col with
        ⟨ts, rest', l', c', heq, -, -⟩ | ⟨hc, hqe, heq⟩
      · rw [tokLoop, heq] at h
        obtain ⟨tail, l2, c2, hreach, hq, he⟩ := ih rest' l' c' (acc ++ ts) e h
        exact ⟨tail, l2, c2, .step heq hreach, hq, he⟩
      · subst hc
        rw [tokLoop, heq] at h
        injection h with h
        injection h with h
        exact ⟨rs, line, col, .refl _ _ _,
          (scanStr_snd_empty_iff rs).mp hqe, h.symm⟩

/-- Reaching a dangling opening quote makes `tokenize` fail with the
unterminated-string error at that quote's location. -/
theorem tokenize_err_of_reach {chars : List Char} {fn : String}
    {tail : List Char} {line col : Nat}
    (h : ScanReach fn (shebangStrip chars) 1 1 ('"' :: tail) line col)
    (hq : '"' ∉ tail) :
    tokenize chars fn = some (.error (.unterminatedString ⟨line, col, fn⟩)) := by
  unfold tokenize
  obtain ⟨fuel2, acc2, hf2, heq⟩ :=
    tokLoop_reach fn h chars.length [] (shebangStrip_length chars)
  rw [heq]
  cases fuel2 with
  | zero => simp at hf2
  | succ fuel2 =>
    rw [tokLoop,
        tokStep_eq_quote_err fn tail line col ((scanStr_snd_empty_iff tail).mpr hq)]


/-! ## Parser lemmas -/

theorem pbind_ok_iff {α β : Type} {x : POut α} {f : α → Nat → POut β} {b : β}
    {c2 : Nat} :
    pbind x f = .ok b c2 ↔ ∃ a c1, x = .ok a c1 ∧ f a c1 = .ok b c2 := by
  cases x with
  | ok a c =>
    constructor
    · intro h
      exact ⟨a, c, rfl, h⟩
    · rintro ⟨a', c1, he, h⟩
      injection he with e1 e2
      subst e1
      subst e2
      exact h
  | panic => simp [pbind]
  | fuelOut => simp [pbind]
  | error e => simp [pbind]


theorem valuesRegOk_append (xs ys : List Value) :
    valuesRegOk (xs ++ ys) = (valuesRegOk xs && valuesRegOk ys) := by
  induction xs with
  | nil => simp [valuesRegOk]
  | cons x xs ih => simp [valuesRegOk, ih, Bool.and_assoc]

theorem cmdsRegOk_append (xs ys : List Command) :
    cmdsRegOk (xs ++ ys) = (cmdsRegOk xs && cmdsRegOk ys) := by
  induction xs with
  | nil => simp [cmdsRegOk]
  | cons x xs ih => simp [cmdsRegOk, ih, Bool.and_assoc]

theorem iloadRegCheck_ok {q : ℚ} {loc : Loc} {r : Nat}
    (h : iloadRegCheck q loc = .ok r) : r < 16 ∧ r = rsF64toU64 q := by
  unfold iloadRegCheck at h
  split_ifs at h with h1 h2
  · injection h with h
    constructor
    · omega
    · exact h.symm

/-- Constructor inversion for a successful `parse_value`: the produced value
is a literal, `nil`, an array from the array loop, or a function from the
function loop. -/
theorem parse_value_ok_inv {tokens : List Token} {fuel ctok : Nat} {v : Value}
    {c' : Nat} (h : parse_value tokens (fuel + 1) ctok = .ok v c') :
    (∃ q, v = .Number q) ∨ (∃ s, v = .String s) ∨ (∃ b, v = .Boolean b) ∨
    v = .Nil ∨
    (∃ vs c4 c5, v = .Array vs ∧ parseArrLoop tokens fuel c4 [] = .ok vs c5) ∨
    (∃ cs c5 c6, v = .Function cs ∧ parseFunLoop tokens fuel c5 [] = .ok cs c6) := by
  rw [parse_value, pbind_ok_iff] at h
  obtain ⟨b1, c1, -, h⟩ := h
  cases b1 with
  | true =>
    rw [if_pos rfl] at h
    rw [pbind_ok_iff] at h
    obtain ⟨t, ct, -, h⟩ := h
    split at h
    · split at h
      · injection h with e1 e2
        exact .inl ⟨_, e1.symm⟩
      · cases h
    · cases h
  | false =>
    rw [if_neg (by decide)] at h
    rw [pbind_ok_iff] at h
    obtain ⟨b2, c2, -, h⟩ := h
    cases b2 with
    | true =>
      rw [if_pos rfl] at h
      rw [pbind_ok_iff] at h
      obtain ⟨t, ct, -, h⟩ := h
      split at h
      · injection h with e1 e2
        exact .inr (.inl ⟨_, e1.symm⟩)
      · cases h
    | false =>
      rw [if_neg (by decide)] at h
      rw [pbind_ok_iff] at h
      obtain ⟨b3, c3, -, h⟩ := h
      cases b3 with
      | true =>
        rw [if_pos rfl] at h
        rw [pbind_ok_iff] at h
        obtain ⟨t, ct, -, h⟩ := h
        split at h
        · injection h with e1 e2
          exact .inr (.inr (.inl ⟨_, e1.symm⟩))
        · cases h
      | false =>
        rw [if_neg (by decide)] at h
        rw [pbind_ok_iff] at h
        obtain ⟨b4, c4, -, h⟩ := h
        cases b4 with
        | true =>
          rw [if_pos rfl] at h
          rw [pbind_ok_iff] at h
          obtain ⟨vs, c5, harr, h⟩ := h
          injection h with e1 e2
          exact .inr (.inr (.inr (.inr (.inl ⟨vs, c4, c5, e1.symm, harr⟩))))
        | false =>
          rw [if_neg (by decide)] at h
          rw [pbind_ok_iff] at h
          obtain ⟨b5, c5, -, h⟩ := h
          cases b5 with
          | true =>
            rw [if_pos rfl] at h
            rw [pbind_ok_iff] at h
            obtain ⟨cs, c6, hfun, h⟩ := h
            injection h with e1 e2
            exact .inr (.inr (.inr (.inr (.inr ⟨cs, c5, c6, e1.symm, hfun⟩))))
          | false =>
            rw [if_neg (by decide)] at h
            rw [pbind_ok_iff] at h
            obtain ⟨b6, c6, -, h⟩ := h
            cases b6 with
            | true =>
              rw [if_pos rfl] at h
              injection h with e1 e2
              exact .inr (.inr (.inr (.inl e1.symm)))
            | false =>
              rw [if_neg (by decide)] at h
              rw [pbind_ok_iff] at h
              obtain ⟨t, c7, -, h⟩ := h
              cases h

/-- Constructor inversion for a successful `parse_command`: the produced
command is a `Push` of a parsed value, an `ILoad` whose register passed
`iloadRegCheck` (then reduced `% 256`) with a parsed value, or a
zero-payload opcode. -/
theorem parse_command_ok_inv {tokens : List Token} {fuel ctok : Nat}
    {cmd : Command} {c' : Nat}
    (h : parse_command tokens (fuel + 1) ctok = .ok cmd c') :
    (∃ v c2 c3, cmd = .Push v ∧ parse_value tokens fuel c2 = .ok v c3) ∨
    (∃ r v q loc c2 c3, cmd = .ILoad (r % 256) v ∧ iloadRegCheck q loc = .ok r ∧
      parse_value tokens fuel c2 = .ok v c3) ∨
    cmdRegOk cmd = true := by
  rw [parse_command, pbind_ok_iff] at h
  obtain ⟨t, c1, -, h⟩ := h
  split at h
  · -- Push
    rw [pbind_ok_iff] at h
    obtain ⟨v, c2, hv, h⟩ := h
    injection h with e1 e2
    exact .inl ⟨v, _, _, e1.symm, hv⟩
  · -- ILoad
    rw [pbind_ok_iff] at h
    obtain ⟨q, c2, -, h⟩ := h
    rw [pbind_ok_iff] at h
    obtain ⟨lt, c3, -, h⟩ := h
    split at h
    · cases h
    next reg heq =>
      rw [pbind_ok_iff] at h
      obtain ⟨v, c4, hv, h⟩ := h
      injection h with e1 e2
      exact .inr (.inl ⟨reg, v, q, lt.loc, _, _, e1.symm, heq, hv⟩)
  all_goals
    first
    | (injection h with e1 e2; exact .inr (.inr (e1 ▸ rfl)))
    | injection h

/-- The register invariant holds of everything the parser builds, at every
fuel: parsed values, array/function bodies, commands and command lists. -/
theorem parser_regOk (tokens : List Token) :
    ∀ fuel,
      (∀ ctok v c', parse_value tokens fuel ctok = .ok v c' →
        valueRegOk v = true) ∧
      (∀ ctok acc vs c', valuesRegOk acc = true →
        parseArrLoop tokens fuel ctok acc = .ok vs c' → valuesRegOk vs = true) ∧
      (∀ ctok acc cs c', cmdsRegOk acc = true →
        parseFunLoop tokens fuel ctok acc = .ok cs c' → cmdsRegOk cs = true) ∧
      (∀ ctok cmd c', parse_command tokens fuel ctok = .ok cmd c' →
        cmdRegOk cmd = true) ∧
      (∀ ctok acc cs c', cmdsRegOk acc = true →
        parseLoop tokens fuel ctok acc = .ok cs c' → cmdsRegOk cs = true) := by
  intro fuel
  induction fuel with
  | zero =>
    refine ⟨?_, ?_, ?_, ?_, ?_⟩ <;> intro ctok
    · intro v c' h
      simp [parse_value] at h
    · intro acc vs c' ha h
      simp [parseArrLoop] at h
    · intro acc cs c' ha h
      simp [parseFunLoop] at h
    · intro cmd c' h
      simp [parse_command] at h
    · intro acc cs c' ha h
      simp [parseLoop] at h
  | succ fuel ih =>
    obtain ⟨ihv, iha, ihf, ihc, ihl⟩ := ih
    refine ⟨?_, ?_, ?_, ?_, ?_⟩
    · -- parse_value
      intro ctok v c' h
      rcases parse_value_ok_inv h with
        ⟨q, rfl⟩ | ⟨sv, rfl⟩ | ⟨bv, rfl⟩ | rfl |
        ⟨vs, c4, c5, rfl, harr⟩ | ⟨cs, c5, c6, rfl, hfun⟩
      · rfl
      · rfl
      · rfl
      · rfl
      · exact iha c4 [] vs c5 rfl harr
      · exact ihf c5 [] cs c6 rfl hfun
    · -- parseArrLoop
      intro ctok acc vs c' ha h
      rw [parseArrLoop, pbind_ok_iff] at h
      obtain ⟨b, c1, -, h⟩ := h
      cases b with
      | true =>
        rw [if_pos rfl] at h
        injection h with e1 e2
        exact e1 ▸ ha
      | false =>
        rw [if_neg (by decide), pbind_ok_iff] at h
        obtain ⟨v, c2, hv, h⟩ := h
        refine iha c2 (acc ++ [v]) vs c' ?_ h
        rw [valuesRegOk_append, ha, Bool.true_and]
        simp [valuesRegOk, ihv c1 v c2 hv]
    · -- parseFunLoop
      intro ctok acc cs c' ha h
      rw [parseFunLoop, pbind_ok_iff] at h
      obtain ⟨b, c1, -, h⟩ := h
      cases b with
      | true =>
        rw [if_pos rfl] at h
        injection h with e1 e2
        exact e1 ▸ ha
      | false =>
        rw [if_neg (by decide), pbind_ok_iff] at h
        obtain ⟨cmd, c2, hc, h⟩ := h
        refine ihf c2 (acc ++ [cmd]) cs c' ?_ h
        rw [cmdsRegOk_append, ha, Bool.true_and]
        simp [cmdsRegOk, ihc c1 cmd c2 hc]
    · -- parse_command
      intro ctok cmd c' h
      rcases parse_command_ok_inv h with
        ⟨v, c2, c3, rfl, hv⟩ | ⟨r, v, q, loc, c2, c3, rfl, hr, hv⟩ | hz
      · exact ihv c2 v c3 hv
      · have hlt := (iloadRegCheck_ok hr).1
        have : r % 256 = r := Nat.mod_eq_of_lt (by omega)
        rw [cmdRegOk, this]
        simp [hlt, ihv c2 v c3 hv]
      · exact hz
    · -- parseLoop
      intro ctok acc cs c' ha h
      rw [parseLoop, pbind_ok_iff] at h
      obtain ⟨b, c1, -, h⟩ := h
      cases b with
      | true =>
        rw [if_pos rfl] at h
        injection h with e1 e2
        exact e1 ▸ ha
      | false =>
        rw [if_neg (by decide), pbind_ok_iff] at h
        obtain ⟨cmd, c2, hc, h⟩ := h
        refine ihl c2 (acc ++ [cmd]) cs c' ?_ h
        rw [cmdsRegOk_append, ha, Bool.true_and]
        simp [cmdsRegOk, ihc c1 cmd c2 hc]

/-! ## Cursor-safety lemmas: the sentinel shape and the parser invariant. -/



theorem Inv_zero (tokens : List Token) : Inv tokens 0 :=
  ⟨Nat.zero_le _, fun j _ hlt => absurd hlt (Nat.not_lt_zero j)⟩

theorem inv_lt {tokens : List Token} {ctok : Nat}
    (hg : GoodToks tokens) (hi : Inv tokens ctok) : ctok < tokens.length := by
  obtain ⟨pre, loc, he, -⟩ := hg
  rcases Nat.lt_or_ge ctok tokens.length with h | h
  · exact h
  · exfalso
    have hlen : tokens.length = pre.length + 1 := by rw [he]; simp
    have hj : pre.length < tokens.length := by omega
    have hne := hi.2 pre.length hj (by omega)
    apply hne
    have hget : tokens.get ⟨pre.length, hj⟩ = ⟨.Eof, loc⟩ := by
      rw [List.get_eq_getElem]
      exact he ▸ List.getElem_concat_length pre ⟨.Eof, loc⟩ pre.length rfl (he ▸ hj)
    rw [hget]

theorem Inv_succ {tokens : List Token} {ctok : Nat} (hi : Inv tokens ctok)
    (hlt : ctok < tokens.length)
    (hne : (tokens.get ⟨ctok, hlt⟩).typ ≠ .Eof) : Inv tokens (ctok + 1) := by
  refine ⟨hlt, fun j hj hjlt => ?_⟩
  rcases Nat.lt_or_ge j ctok with h | h
  · exact hi.2 j hj h
  · have : j = ctok := by omega
    subst this
    exact hne

theorem pbind_ne_panic {α β : Type} {x : POut α} {f : α → Nat → POut β}
    (hx : x ≠ .panic) (hf : ∀ a c, x = .ok a c → f a c ≠ .panic) :
    pbind x f ≠ .panic := by
  cases x with
  | ok a c => exact hf a c rfl
  | panic => exact absurd rfl hx
  | fuelOut => simp [pbind]
  | error e => simp [pbind]

theorem next_eq {tokens : List Token} {ctok : Nat} (hlt : ctok < tokens.length) :
    next tokens ctok = .ok (tokens.get ⟨ctok, hlt⟩) (ctok + 1) := by
  unfold next
  rw [dif_pos hlt]

theorem last_eq {tokens : List Token} {ctok : Nat} (hpos : 1 ≤ ctok)
    (hle : ctok ≤ tokens.length) :
    ∃ h : ctok - 1 < tokens.length,
      last tokens ctok = .ok (tokens.get ⟨ctok - 1, h⟩) ctok := by
  have h : ctok - 1 < tokens.length := by omega
  refine ⟨h, ?_⟩
  unfold last
  rw [if_neg (by omega), dif_pos h]

theorem accept_spec {tokens : List Token} {ctok : Nat}
    (hlt : ctok < tokens.length) (typ : TokenType) :
    ((tokens.get ⟨ctok, hlt⟩).typ = typ ∧
      accept tokens ctok typ = .ok true (ctok + 1)) ∨
    ((tokens.get ⟨ctok, hlt⟩).typ ≠ typ ∧
      accept tokens ctok typ = .ok false ctok) := by
  unfold accept
  rw [next_eq hlt]
  simp only [pbind]
  by_cases h : (tokens.get ⟨ctok, hlt⟩).typ = typ
  · left
    exact ⟨h, by rw [if_pos h]⟩
  · right
    refine ⟨h, ?_⟩
    rw [if_neg h]
    unfold rewind
    rw [if_pos (by omega)]
    simp [pbind]

theorem accept_num_spec {tokens : List Token} {ctok : Nat}
    (hlt : ctok < tokens.length) :
    (∃ txt, (tokens.get ⟨ctok, hlt⟩).typ = .Number txt ∧
      accept_num tokens ctok = .ok true (ctok + 1)) ∨
    ((∀ txt, (tokens.get ⟨ctok, hlt⟩).typ ≠ .Number txt) ∧
      accept_num tokens ctok = .ok false ctok) := by
  unfold accept_num
  rw [next_eq hlt]
  simp only [pbind]
  cases htyp : (tokens.get ⟨ctok, hlt⟩).typ
  case Number txt => exact .inl ⟨txt, rfl, rfl⟩
  all_goals
    refine .inr ⟨by simp, ?_⟩
    unfold rewind
    rw [if_pos (by omega)]
    simp [pbind]

theorem accept_str_spec {tokens : List Token} {ctok : Nat}
    (hlt : ctok < tokens.length) :
    (∃ txt, (tokens.get ⟨ctok, hlt⟩).typ = .String txt ∧
      accept_str tokens ctok = .ok true (ctok + 1)) ∨
    ((∀ txt, (tokens.get ⟨ctok, hlt⟩).typ ≠ .String txt) ∧
      accept_str tokens ctok = .ok false ctok) := by
  unfold accept_str
  rw [next_eq hlt]
  simp only [pbind]
  cases htyp : (tokens.get ⟨ctok, hlt⟩).typ
  case String txt => exact .inl ⟨txt, rfl, rfl⟩
  all_goals
    refine .inr ⟨by simp, ?_⟩
    unfold rewind
    rw [if_pos (by omega)]
    simp [pbind]

theorem accept_bool_spec {tokens : List Token} {ctok : Nat}
    (hlt : ctok < tokens.length) :
    (∃ bv, (tokens.get ⟨ctok, hlt⟩).typ = .Boolean bv ∧
      accept_bool tokens ctok = .ok true (ctok + 1)) ∨
    ((∀ bv, (tokens.get ⟨ctok, hlt⟩).typ ≠ .Boolean bv) ∧
      accept_bool tokens ctok = .ok false ctok) := by
  unfold accept_bool
  rw [next_eq hlt]
  simp only [pbind]
  cases htyp : (tokens.get ⟨ctok, hlt⟩).typ
  case Boolean bv => exact .inl ⟨bv, rfl, rfl⟩
  all_goals
    refine .inr ⟨by simp, ?_⟩
    unfold rewind
    rw [if_pos (by omega)]
    simp [pbind]

/-- Under the cursor invariant (and a previously consumed token, so the
rewound `last` stays in bounds), `expect_num` never panics, and success
advances the cursor exactly one past a `Number` token. -/
theorem expect_num_spec {tokens : List Token} {ctok : Nat}
    (hpos : 1 ≤ ctok) (hlt : ctok < tokens.length) :
    expect_num tokens ctok ≠ .panic ∧
    ∀ q c', expect_num tokens ctok = .ok q c' → c' = ctok + 1 ∧
      ∃ txt, (tokens.get ⟨ctok, hlt⟩).typ = .Number txt := by
  unfold expect_num
  rw [next_eq hlt]
  simp only [pbind]
  cases htyp : (tokens.get ⟨ctok, hlt⟩).typ
  case Number txt =>
    cases hpf : parseF64 txt with
    | none =>
      simp only [hpf]
      exact ⟨by simp, fun q c' h => by cases h⟩
    | some qv =>
      simp only [hpf]
      refine ⟨by simp, fun q c' h => ?_⟩
      injection h with e1 e2
      exact ⟨e2.symm, txt, rfl⟩
  all_goals
    unfold rewind
    rw [if_pos (by omega)]
    simp only [pbind]
    obtain ⟨h2, hlast⟩ := last_eq hpos (le_of_lt hlt)
    rw [Nat.add_sub_cancel, hlast]
    exact ⟨by simp [pbind], fun q c' h => by cases h⟩

/-- `pbind` over an already-successful step. -/

theorem pbind_ok {α β : Type} (a : α) (c : Nat) (f : α → Nat → POut β) :
    pbind (.ok a c) f = f a c := rfl

theorem parser_no_panic (tokens : List Token) (hg : GoodToks tokens) :
    ∀ fuel,
      (∀ ctok, Inv tokens ctok → parse_value tokens fuel ctok ≠ .panic ∧
        ∀ v c', parse_value tokens fuel ctok = .ok v c' → Inv tokens c') ∧
      (∀ ctok acc, Inv tokens ctok → parseArrLoop tokens fuel ctok acc ≠ .panic ∧
        ∀ vs c', parseArrLoop tokens fuel ctok acc = .ok vs c' → Inv tokens c') ∧
      (∀ ctok acc, Inv tokens ctok → parseFunLoop tokens fuel ctok acc ≠ .panic ∧
        ∀ cs c', parseFunLoop tokens fuel ctok acc = .ok cs c' → Inv tokens c') ∧
      (∀ ctok, Inv tokens ctok → parse_command tokens fuel ctok ≠ .panic ∧
        ∀ cmd c', parse_command tokens fuel ctok = .ok cmd c' → Inv tokens c') ∧
      (∀ ctok acc, Inv tokens ctok → parseLoop tokens fuel ctok acc ≠ .panic) := by
  intro fuel
  induction fuel with
  | zero =>
    refine ⟨?_, ?_, ?_, ?_, ?_⟩ <;> intro ctok
    · intro hi
      exact ⟨by simp [parse_value], fun v c' h => by simp [parse_value] at h⟩
    · intro acc hi
      exact ⟨by simp [parseArrLoop], fun vs c' h => by simp [parseArrLoop] at h⟩
    · intro acc hi
      exact ⟨by simp [parseFunLoop], fun cs c' h => by simp [parseFunLoop] at h⟩
    · intro hi
      exact ⟨by simp [parse_command], fun cmd c' h => by simp [parse_command] at h⟩
    · intro acc hi
      simp [parseLoop]
  | succ fuel ih =>
    obtain ⟨ihv, iha, ihf, ihc, ihl⟩ := ih
    refine ⟨?_, ?_, ?_, ?_, ?_⟩
    · -- parse_value
      intro ctok hi
      have hlt := inv_lt hg hi
      rcases accept_num_spec hlt with ⟨txt, htyp, heq⟩ | ⟨hnotnum, heq⟩
      · rw [parse_value, heq]
        simp only [pbind_ok]
        rw [if_pos (by trivial)]
        obtain ⟨h2, hlast⟩ := last_eq (Nat.le_add_left 1 ctok) (Nat.succ_le_of_lt hlt)
        rw [hlast]
        simp only [pbind_ok]
        have hfin : (⟨ctok + 1 - 1, h2⟩ : Fin tokens.length) = ⟨ctok, hlt⟩ :=
          Fin.ext (by simp)
        rw [hfin, htyp]
        cases hpf : parseF64 txt with
        | none =>
          simp only [hpf]
          exact ⟨by simp, fun v c' h => by cases h⟩
        | some q =>
          simp only [hpf]
          refine ⟨by simp, fun v c' h => ?_⟩
          injection h with e1 e2
          exact e2 ▸ Inv_succ hi hlt (by rw [htyp]; simp)
      · rw [parse_value, heq]
        simp only [pbind_ok]
        rw [if_neg (by decide)]
        rcases accept_str_spec hlt with ⟨txt, htyp, heq2⟩ | ⟨hnots, heq2⟩
        · rw [heq2]
          simp only [pbind_ok]
          rw [if_pos (by trivial)]
          obtain ⟨h2, hlast⟩ := last_eq (Nat.le_add_left 1 ctok) (Nat.succ_le_of_lt hlt)
          rw [hlast]
          simp only [pbind_ok]
          have hfin : (⟨ctok + 1 - 1, h2⟩ : Fin tokens.length) = ⟨ctok, hlt⟩ :=
            Fin.ext (by simp)
          rw [hfin, htyp]
          refine ⟨by simp, fun v c' h => ?_⟩
          injection h with e1 e2
          exact e2 ▸ Inv_succ hi hlt (by rw [htyp]; simp)
        · rw [heq2]
          simp only [pbind_ok]
          rw [if_neg (by decide)]
          rcases accept_bool_spec hlt with ⟨bv, htyp, heq3⟩ | ⟨hnotb, heq3⟩
          · rw [heq3]
            simp only [pbind_ok]
            rw [if_pos (by trivial)]
            obtain ⟨h2, hlast⟩ := last_eq (Nat.le_add_left 1 ctok) (Nat.succ_le_of_lt hlt)
            rw [hlast]
            simp only [pbind_ok]
            have hfin : (⟨ctok + 1 - 1, h2⟩ : Fin tokens.length) = ⟨ctok, hlt⟩ :=
              Fin.ext (by simp)
            rw [hfin, htyp]
            refine ⟨by simp, fun v c' h => ?_⟩
            injection h with e1 e2
            exact e2 ▸ Inv_succ hi hlt (by rw [htyp]; simp)
          · rw [heq3]
            simp only [pbind_ok]
            rw [if_neg (by decide)]
            rcases accept_spec hlt .LeftSquare with ⟨htyp, heq4⟩ | ⟨hn4, heq4⟩
            · rw [heq4]
              simp only [pbind_ok]
              rw [if_pos (by trivial)]
              have hinv1 : Inv tokens (ctok + 1) :=
                Inv_succ hi hlt (by rw [htyp]; simp)
              refine ⟨pbind_ne_panic (iha (ctok + 1) [] hinv1).1
                (fun vs c hh => by simp), fun v c' h => ?_⟩
              rw [pbind_ok_iff] at h
              obtain ⟨vs, c5, harr, h2⟩ := h
              injection h2 with e1 e2
              exact e2 ▸ (iha (ctok + 1) [] hinv1).2 vs c5 harr
            · rw [heq4]
              simp only [pbind_ok]
              rw [if_neg (by decide)]
              rcases accept_spec hlt .LeftCurly with ⟨htyp, heq5⟩ | ⟨hn5, heq5⟩
              · rw [heq5]
                simp only [pbind_ok]
                rw [if_pos (by trivial)]
                have hinv1 : Inv tokens (ctok + 1) :=
                  Inv_succ hi hlt (by rw [htyp]; simp)
                refine ⟨pbind_ne_panic (ihf (ctok + 1) [] hinv1).1
                  (fun cs c hh => by simp), fun v c' h => ?_⟩
                rw [pbind_ok_iff] at h
                obtain ⟨cs, c6, hfun, h2⟩ := h
                injection h2 with e1 e2
                exact e2 ▸ (ihf (ctok + 1) [] hinv1).2 cs c6 hfun
              · rw [heq5]
                simp only [pbind_ok]
                rw [if_neg (by decide)]
                rcases accept_spec hlt .Nil with ⟨htyp, heq6⟩ | ⟨hn6, heq6⟩
                · rw [heq6]
                  simp only [pbind_ok]
                  rw [if_pos (by trivial)]
                  refine ⟨by simp, fun v c' h => ?_⟩
                  injection h with e1 e2
                  exact e2 ▸ Inv_succ hi hlt (by rw [htyp]; simp)
                · rw [heq6]
                  simp only [pbind_ok]
                  rw [if_neg (by decide), next_eq hlt]
                  simp only [pbind_ok]
                  exact ⟨by simp, fun v c' h => by cases h⟩
    · -- parseArrLoop
      intro ctok acc hi
      have hlt := inv_lt hg hi
      rcases accept_spec hlt .RightSquare with ⟨htyp, heq⟩ | ⟨hn, heq⟩
      · rw [parseArrLoop, heq]
        simp only [pbind_ok]
        rw [if_pos (by trivial)]
        refine ⟨by simp, fun vs c' h => ?_⟩
        injection h with e1 e2
        exact e2 ▸ Inv_succ hi hlt (by rw [htyp]; simp)
      · rw [parseArrLoop, heq]
        simp only [pbind_ok]
        rw [if_neg (by decide)]
        refine ⟨pbind_ne_panic (ihv ctok hi).1
          (fun v c2 hh => (iha c2 (acc ++ [v]) ((ihv ctok hi).2 v c2 hh)).1),
          fun vs c' h => ?_⟩
        rw [pbind_ok_iff] at h
        obtain ⟨v, c2, hv, h2⟩ := h
        exact (iha c2 (acc ++ [v]) ((ihv ctok hi).2 v c2 hv)).2 vs c' h2
    · -- parseFunLoop
      intro ctok acc hi
      have hlt := inv_lt hg hi
      rcases accept_spec hlt .RightCurly with ⟨htyp, heq⟩ | ⟨hn, heq⟩
      · rw [parseFunLoop, heq]
        simp only [pbind_ok]
        rw [if_pos (by trivial)]
        refine ⟨by simp, fun cs c' h => ?_⟩
        injection h with e1 e2
        exact e2 ▸ Inv_succ hi hlt (by rw [htyp]; simp)
      · rw [parseFunLoop, heq]
        simp only [pbind_ok]
        rw [if_neg (by decide)]
        refine ⟨pbind_ne_panic (ihc ctok hi).1
          (fun cmd c2 hh => (ihf c2 (acc ++ [cmd]) ((ihc ctok hi).2 cmd c2 hh)).1),
          fun cs c' h => ?_⟩
        rw [pbind_ok_iff] at h
        obtain ⟨cmd, c2, hc, h2⟩ := h
        exact (ihf c2 (acc ++ [cmd]) ((ihc ctok hi).2 cmd c2 hc)).2 cs c' h2
    · -- parse_command
      intro ctok hi
      have hlt := inv_lt hg hi
      rw [parse_command, next_eq hlt]
      simp only [pbind_ok]
      cases htyp : (tokens.get ⟨ctok, hlt⟩).typ
      case Push =>
        dsimp only
        have hinv1 : Inv tokens (ctok + 1) := Inv_succ hi hlt (by rw [htyp]; simp)
        refine ⟨pbind_ne_panic (ihv (ctok + 1) hinv1).1
          (fun v c2 hh => by simp), fun cmd c' h => ?_⟩
        rw [pbind_ok_iff] at h
        obtain ⟨v, c2, hv, h2⟩ := h
        injection h2 with e1 e2
        exact e2 ▸ (ihv (ctok + 1) hinv1).2 v c2 hv
      case ILoad =>
        dsimp only
        have hinv1 : Inv tokens (ctok + 1) := Inv_succ hi hlt (by rw [htyp]; simp)
        have hlt1 : ctok + 1 < tokens.length := inv_lt hg hinv1
        obtain ⟨henp, henok⟩ := expect_num_spec (by omega) hlt1
        constructor
        · refine pbind_ne_panic henp (fun q c2 hh => ?_)
          obtain ⟨he2, txt, htxt⟩ := henok q c2 hh
          subst he2
          have hinv2 : Inv tokens (ctok + 1 + 1) :=
            Inv_succ hinv1 hlt1 (by rw [htxt]; simp)
          obtain ⟨h3, hlast⟩ := last_eq (by omega) hinv2.1
          rw [hlast]
          simp only [pbind_ok]
          cases hchk : iloadRegCheck q (tokens.get ⟨ctok + 1 + 1 - 1, h3⟩).loc with
          | error e => simp only [hchk]; simp
          | ok reg =>
            simp only [hchk]
            exact pbind_ne_panic (ihv (ctok + 1 + 1) hinv2).1
              (fun v c3 hh2 => by simp)
        · intro cmd c' h
          rw [pbind_ok_iff] at h
          obtain ⟨q, c2, hq, h⟩ := h
          obtain ⟨he2, txt, htxt⟩ := henok q c2 hq
          subst he2
          have hinv2 : Inv tokens (ctok + 1 + 1) :=
            Inv_succ hinv1 hlt1 (by rw [htxt]; simp)
          rw [pbind_ok_iff] at h
          obtain ⟨lt, c3, hlast2, h⟩ := h
          split at h
          · cases h
          · rw [pbind_ok_iff] at h
            obtain ⟨v, c4, hv, h2⟩ := h
            injection h2 with e1 e2
            exact e2 ▸ (ihv (ctok + 1 + 1) hinv2).2 v c4 hv
      all_goals
        refine ⟨by simp, ?_⟩
        intro cmd c' h
        first
        | (injection h with e1 e2; exact e2 ▸ Inv_succ hi hlt (by rw [htyp]; simp))
        | cases h
    · -- parseLoop
      intro ctok acc hi
      have hlt := inv_lt hg hi
      rcases accept_spec hlt .Eof with ⟨htyp, heq⟩ | ⟨hn, heq⟩
      · rw [parseLoop, heq]
        simp only [pbind_ok]
        rw [if_pos (by trivial)]
        simp
      · rw [parseLoop, heq]
        simp only [pbind_ok]
        rw [if_neg (by decide)]
        exact pbind_ne_panic (ihc ctok hi).1
          (fun cmd c2 hh => ihl c2 (acc ++ [cmd]) ((ihc ctok hi).2 cmd c2 hh))


mutual

theorem generate_value_spec (f64le : ℚ → List Nat) :
    ∀ v, generate_value f64le v = specEncodeValue f64le v
  | .Nil => rfl
  | .Number q => rfl
  | .String sv => rfl
  | .Boolean b => rfl
  | .Function cs => by
    rw [generate_value, specEncodeValue, generate_spec f64le cs]
    rfl
  | .Array vs => by
    rw [generate_value, specEncodeValue, generateValues_spec f64le vs]
    rfl

theorem generateValues_spec (f64le : ℚ → List Nat) :
    ∀ vs, generateValues f64le vs = specEncodeValues f64le vs
  | [] => rfl
  | v :: vs => by
    rw [generateValues, specEncodeValues, generate_value_spec f64le v,
        generateValues_spec f64le vs]

theorem generate_spec (f64le : ℚ → List Nat) :
    ∀ cs, generate f64le cs = specEncodeCommands f64le cs
  | [] => rfl
  | c :: cs => by
    have hcs := generate_spec f64le cs
    cases c
    case Push v =>
      rw [generate, specEncodeCommands, hcs, generate_value_spec f64le v]
      rfl
    case ILoad r v =>
      rw [generate, specEncodeCommands, hcs, generate_value_spec f64le v]
      rfl
    all_goals
      rw [generate, specEncodeCommands, hcs] <;>
        first
        | rfl
        | (intros; rename_i hx; cases hx)

end

/-- Helper for the register-check characterization: success of the `iload`
register validation is exactly integrality plus saturated cast below 16. -/
theorem iloadRegCheck_iff (q : ℚ) (loc : Loc) :
    (∃ r, iloadRegCheck q loc = .ok r) ↔ (q.den = 1 ∧ rsF64toU64 q < 16) := by
  unfold iloadRegCheck
  split_ifs with h1 h2
  · constructor
    · rintro ⟨r, hr⟩
      cases hr
    · rintro ⟨hd, -⟩
      exact absurd hd h1
  · constructor
    · rintro -
      exact ⟨by omega, h2⟩
    · rintro -
      exact ⟨rsF64toU64 q, rfl⟩
  · constructor
    · rintro ⟨r, hr⟩
      cases hr
    · rintro ⟨-, hlt⟩
      exact absurd hlt h2

/-- Helper: any negative exact-integer register saturates to 0 and is
accepted. -/
theorem iloadRegCheck_neg (q : ℚ) (loc : Loc) (hden : q.den = 1) (hneg : q < 0) :
    iloadRegCheck q loc = .ok 0 := by
  have h0 : rsF64toU64 q = 0 := by
    unfold rsF64toU64
    rw [if_pos hneg]
  unfold iloadRegCheck
  rw [if_neg (show ¬(q.den ≠ 1) by omega), h0]
  rfl

/-- Helper: the head byte of an encoded value is its tag. -/
theorem generate_value_head (f64le : ℚ → List Nat) (v : Value) :
    (generate_value f64le v).head? = some (valueTag v) := by
  cases v <;> rfl

/-- Helper: the head byte of an encoded command sequence is the first
command's tag. -/
theorem generate_head (f64le : ℚ → List Nat) (c : Command) (cs : List Command) :
    (generate f64le (c :: cs)).head? = some (commandTag c) := by
  cases c <;> rfl

/-! ## Claim theorems -/

/-- C1: encoding serializes each Value and Command depth-first as exactly
one tag byte — the variant's position in its declared enumeration (Value:
Nil=0, Number=1, String=2, Boolean=3, Function=4, Array=5; Command: Push=0,
Dup=1, Swap=2, ILoad=3, ..., Iota=34) — followed by the variant-specific
payload of the layout table (`specEncodeValue`/`specEncodeCommand`,
transcribed from the table): Number as the 8-byte little-endian IEEE-754
double image `f64le`; String as an 8-byte little-endian byte-length then
the raw UTF-8 bytes; Boolean as one byte 0 or 1; Function as an 8-byte
little-endian command count then the concatenated command encodings; Array
as an 8-byte little-endian element count then the concatenated element
encodings; Push as its encoded Value; ILoad as one register byte then its
encoded Value; zero-payload opcodes as the tag byte alone. -/
theorem c1_encoding_tag_and_layout :
    (∀ f64le v, generate_value f64le v = specEncodeValue f64le v) ∧
    (∀ f64le cmds, generate f64le cmds = specEncodeCommands f64le cmds) ∧
    (∀ f64le v, (generate_value f64le v).head? = some (valueTag v)) ∧
    (∀ f64le c cmds, (generate f64le (c :: cmds)).head? = some (commandTag c)) ∧
    valueTag .Nil = 0 ∧ (∀ q, valueTag (.Number q) = 1) ∧
    (∀ sv, valueTag (.String sv) = 2) ∧ (∀ b, valueTag (.Boolean b) = 3) ∧
    (∀ cs, valueTag (.Function cs) = 4) ∧ (∀ vs, valueTag (.Array vs) = 5) ∧
    (∀ v, commandTag (.Push v) = 0) ∧ commandTag .Dup = 1 ∧
    commandTag .Swap = 2 ∧ (∀ r v, commandTag (.ILoad r v) = 3) ∧
    commandTag .Load = 4 ∧ commandTag .Drop = 5 ∧ commandTag .Query = 6 ∧
    commandTag .Info = 7 ∧ commandTag .If = 8 ∧ commandTag .Each = 9 ∧
    commandTag .Reduce = 10 ∧ commandTag .Reverse = 11 ∧
    commandTag .Map = 12 ∧ commandTag .Filter = 13 ∧ commandTag .Call = 14 ∧
    commandTag .ToStr = 15 ∧ commandTag .ToNum = 16 ∧ commandTag .Add = 17 ∧
    commandTag .Sub = 18 ∧ commandTag .Mul = 19 ∧ commandTag .Div = 20 ∧
    commandTag .Mod = 21 ∧ commandTag .Eq = 22 ∧ commandTag .NotEq = 23 ∧
    commandTag .Greater = 24 ∧ commandTag .GreaterEq = 25 ∧
    commandTag .Less = 26 ∧ commandTag .LessEq = 27 ∧ commandTag .And = 28 ∧
    commandTag .Or = 29 ∧ commandTag .Not = 30 ∧ commandTag .Concat = 31 ∧
    commandTag .Match = 32 ∧ commandTag .Split = 33 ∧ commandTag .Iota = 34 :=
  by
  refine ⟨fun f v => generate_value_spec f v, fun f cs => generate_spec f cs,
    generate_value_head, generate_head, ?_⟩
  repeat' apply And.intro
  all_goals intros
  all_goals rfl

/-- C2 counterexample: the register text `-3` parses to the exact value
`-3`, which does not lie in `[0,16)`, yet `iload -3 5` parses successfully
(to register 0) instead of failing — refuting the claim for negative
register values. -/
theorem c2_counterexample :
    parseF64 "-3" = some (-3) ∧
    ¬((0 : ℚ) ≤ -3 ∧ (-3 : ℚ) < 16) ∧
    lexThenParse "iload -3 5" "f" =
      some (.ok (.ok [.ILoad 0 (.Number 5)] 4)) :=
  ⟨by decide, by decide, by rfl⟩

/-- C2 (amended): for an `iload` register whose text parses to the exact
value `q`, the register check succeeds exactly when `q` is an exact integer
and Rust's saturating `f64 as u64` cast of `q` is below 16; in particular
any negative exact integer saturates to register 0 and is accepted, while
`iload 15 5` parses successfully and `iload 16 5` and `iload 1.5 5` each
fail with a ParseError. -/
theorem c2_register_check_amended :
    (∀ q loc, (∃ r, iloadRegCheck q loc = .ok r) ↔
      (q.den = 1 ∧ rsF64toU64 q < 16)) ∧
    (∀ q loc, q.den = 1 → q < 0 → iloadRegCheck q loc = .ok 0) ∧
    lexThenParse "iload 15 5" "f" =
      some (.ok (.ok [.ILoad 15 (.Number 5)] 4)) ∧
    lexThenParse "iload 16 5" "f" =
      some (.ok (.error (.regRange 16 ⟨1, 5, "f"⟩))) ∧
    lexThenParse "iload 1.5 5" "f" =
      some (.ok (.error (.regNotInt (mkRat 3 2) ⟨1, 5, "f"⟩))) :=
  ⟨iloadRegCheck_iff, iloadRegCheck_neg, by rfl, by rfl, by rfl⟩

/-- C2 witness: the amended characterization applied at `q = -3`: an exact
negative integer passes the check as register 0. -/
theorem c2_register_check_amended_witness :
    (mkRat (-3) 1).den = 1 ∧ mkRat (-3) 1 < 0 ∧
    iloadRegCheck (mkRat (-3) 1) ⟨1, 5, "f"⟩ = .ok 0 :=
  ⟨by decide, by decide,
   c2_register_check_amended.2.1 (mkRat (-3) 1) ⟨1, 5, "f"⟩ (by decide)
     (by decide)⟩

/-- C3: the claim says `nil` lexes to the dedicated `nil` token kind so that
`push nil` parses to `Push Nil`; in the code the keyword table `op_map` has
no entry for `nil` (while `TokenType.Nil` and the parser's `nil` production
exist), so the word is silently dropped and `push nil` yields the token
stream `[push, end-of-input]`, whose parse fails with an unexpected
end-of-file error. -/
theorem c3_nil_token_dropped :
    op_map "nil" = none ∧ op_map "push" = some .Push ∧
    tokenize "push nil".data "f" =
      some (.ok [⟨.Push, ⟨1, 1, "f"⟩⟩, ⟨.Eof, ⟨1, 6, "f"⟩⟩]) ∧
    lexThenParse "push nil" "f" =
      some (.ok (.error (.unexpected .Eof ⟨1, 6, "f"⟩))) :=
  ⟨by rfl, by rfl, by rfl, by rfl⟩

/-- C4: tokenize returns an error if and only if the scan reaches a string
literal's opening `\"` whose closing `\"` is absent before end of input
(`ScanReach`, the reflexive-transitive closure of the loop body `tokStep`,
from the post-shebang start state), the error referencing the string's
start location; for every other input text — terminated strings included —
tokenize returns Ok, possibly with an empty or partial token stream.
In particular `push \"abc` fails with a LexError at the quote's position,
while `push \"abc\" x` and `@@@ xq` lex successfully. -/
theorem c4_error_iff_unterminated_string :
    (∀ chars fn, (∃ e, tokenize chars fn = some (.error e)) ↔
      ∃ tail line col,
        ScanReach fn (shebangStrip chars) 1 1 ('"' :: tail) line col ∧
        '"' ∉ tail) ∧
    (∀ chars fn tail line col,
      ScanReach fn (shebangStrip chars) 1 1 ('"' :: tail) line col →
      '"' ∉ tail →
      tokenize chars fn =
        some (.error (.unterminatedString ⟨line, col, fn⟩))) ∧
    (∀ chars fn,
      (¬ ∃ tail line col,
        ScanReach fn (shebangStrip chars) 1 1 ('"' :: tail) line col ∧
        '"' ∉ tail) →
      ∃ toks, tokenize chars fn = some (.ok toks)) ∧
    tokenize "push \"abc".data "f" =
      some (.error (.unterminatedString ⟨1, 4, "f"⟩)) ∧
    tokenize "push \"abc\" x".data "f" =
      some (.ok [⟨.Push, ⟨1, 1, "f"⟩⟩, ⟨.String "abc", ⟨1, 4, "f"⟩⟩,
                 ⟨.Eof, ⟨1, 8, "f"⟩⟩]) ∧
    tokenize "@@@ xq".data "f" = some (.ok [⟨.Eof, ⟨1, 4, "f"⟩⟩]) := by
  have hiff : ∀ chars fn, (∃ e, tokenize chars fn = some (.error e)) ↔
      ∃ tail line col,
        ScanReach fn (shebangStrip chars) 1 1 ('"' :: tail) line col ∧
        '"' ∉ tail := by
    intro chars fn
    constructor
    · rintro ⟨e, he⟩
      unfold tokenize at he
      obtain ⟨tail, l2, c2, hreach, hq, -⟩ :=
        tokLoop_err_reach fn chars.length (shebangStrip chars) 1 1 [] e he
      exact ⟨tail, l2, c2, hreach, hq⟩
    · rintro ⟨tail, line, col, hreach, hq⟩
      exact ⟨_, tokenize_err_of_reach hreach hq⟩
  refine ⟨hiff, ?_, ?_, by rfl, by rfl, by rfl⟩
  · intro chars fn tail line col hreach hq
    exact tokenize_err_of_reach hreach hq
  · intro chars fn h
    have hs := tokenize_isSome chars fn
    cases heq : tokenize chars fn with
    | none => rw [heq] at hs; cases hs
    | some r =>
      cases r with
      | ok toks => exact ⟨toks, rfl⟩
      | error e => exact absurd ((hiff chars fn).mp ⟨e, heq⟩) h

theorem c4_error_iff_unterminated_string_witness :
    (ScanReach "f" (shebangStrip ('"' :: "abc".data)) 1 1
       ('"' :: "abc".data) 1 1 ∧ '"' ∉ "abc".data ∧
     tokenize ('"' :: "abc".data) "f" =
       some (.error (.unterminatedString ⟨1, 1, "f"⟩))) ∧
    ((¬ ∃ tail line col,
        ScanReach "f" (shebangStrip ([] : List Char)) 1 1
          ('"' :: tail) line col ∧ '"' ∉ tail) ∧
     ∃ toks, tokenize ([] : List Char) "f" = some (.ok toks)) := by
  have h1 : ScanReach "f" (shebangStrip ('"' :: "abc".data)) 1 1
      ('"' :: "abc".data) 1 1 := by
    rw [show shebangStrip ('"' :: "abc".data) = '"' :: "abc".data from rfl]
    exact .refl _ _ _
  have h2 : ¬ ∃ tail line col,
      ScanReach "f" (shebangStrip ([] : List Char)) 1 1
        ('"' :: tail) line col ∧ '"' ∉ tail := by
    rw [show shebangStrip ([] : List Char) = [] from rfl]
    rintro ⟨tail, l, c, hr, -⟩
    cases hr
  exact ⟨⟨h1, by decide, c4_error_iff_unterminated_string.2.1 _ "f" _ 1 1 h1 (by decide)⟩,
         ⟨h2, c4_error_iff_unterminated_string.2.2.1 [] "f" h2⟩⟩


/-- C5: whenever `parse` succeeds, every `ILoad` in the returned command
sequence — including ones nested arbitrarily deep inside Function values —
has a register below 16 (`cmdsRegOk`); registers are integral by
construction, being `Nat`-valued. -/
theorem c5_iload_register_invariant (tokens : List Token)
    (cmds : List Command) (c' : Nat) (h : parse tokens = .ok cmds c') :
    cmdsRegOk cmds = true :=
  (parser_regOk tokens (4 * tokens.length + 4)).2.2.2.2 0 [] cmds c' rfl h

/-- C5 witness: the invariant applied to the parse of `iload 3 5`. -/
theorem c5_iload_register_invariant_witness :
    cmdsRegOk [.ILoad 3 (.Number 5)] = true :=
  c5_iload_register_invariant
    [⟨.ILoad, ⟨1, 1, "f"⟩⟩, ⟨.Number "3", ⟨1, 7, "f"⟩⟩,
     ⟨.Number "5", ⟨1, 9, "f"⟩⟩, ⟨.Eof, ⟨1, 9, "f"⟩⟩]
    [.ILoad 3 (.Number 5)] 4 (by rfl)

/-- C6: `-5` lexes to a single Number token with text `-5` (then the
sentinel); `- 5` lexes to a Sub operator token followed by a Number token
`5`; in general a `-` followed by a digit or `.` takes the negative-number
branch, whose scan (`scanNum`) is the same scan rule 6 applies — the digit
branch's token text for `d :: rest` is `d` consed onto the same scan of
`rest` — with the leading `-` included, while any other `-` takes the
generic word scan and resolves through `op_map`, where `-` maps to the
subtraction operator. -/
theorem c6_negative_number_disambiguation :
    tokenize "-5".data "f" =
      some (.ok [⟨.Number "-5", ⟨1, 1, "f"⟩⟩, ⟨.Eof, ⟨1, 2, "f"⟩⟩]) ∧
    tokenize "- 5".data "f" =
      some (.ok [⟨.Sub, ⟨1, 1, "f"⟩⟩, ⟨.Number "5", ⟨1, 1, "f"⟩⟩,
                 ⟨.Eof, ⟨1, 1, "f"⟩⟩]) ∧
    (∀ fn rs line col, minusStartsNum rs = true →
      tokStep fn '-' rs line col =
        .ok ([⟨.Number (String.mk ('-' :: (scanNum rs false).1)),
               ⟨line, col, fn⟩⟩],
             (scanNum rs false).2, line, col + (scanNum rs false).1.length)) ∧
    (∀ d rs, d.isDigit = true →
      (scanNum (d :: rs) false).1 = d :: (scanNum rs false).1 ∧
      (scanNum (d :: rs) false).2 = (scanNum rs false).2) ∧
    (∀ fn rs line col, minusStartsNum rs = false →
      tokStep fn '-' rs line col =
        .ok ((match op_map (String.mk ('-' :: (scanWord rs).1)) with
              | some t => [⟨t, ⟨line, col, fn⟩⟩]
              | none => []),
             (scanWord rs).2, line, col + (scanWord rs).1.length)) ∧
    op_map "-" = some .Sub :=
  ⟨by rfl, by rfl,
   fun fn rs line col h => tokStep_eq_minus_num fn rs line col h,
   fun d rs hd => by rw [scanNum, if_pos hd]; exact ⟨rfl, rfl⟩,
   fun fn rs line col h => tokStep_eq_minus_word fn rs line col h,
   by rfl⟩

/-- C6 witness: the negative-number branch applied at `-5`, the scan
identity at digit `5`, and the word branch applied at `- 5`. -/
theorem c6_negative_number_disambiguation_witness :
    minusStartsNum ['5'] = true ∧
    tokStep "f" '-' ['5'] 1 1 =
      .ok ([⟨.Number "-5", ⟨1, 1, "f"⟩⟩], [], 1, 2) ∧
    Char.isDigit '5' = true ∧
    (scanNum ['5'] false).1 = '5' :: (scanNum [] false).1 ∧
    minusStartsNum [' ', '5'] = false ∧
    tokStep "f" '-' [' ', '5'] 1 1 = .ok ([⟨.Sub, ⟨1, 1, "f"⟩⟩], [' ', '5'], 1, 1) :=
  ⟨by decide,
   by rw [c6_negative_number_disambiguation.2.2.1 "f" ['5'] 1 1 (by decide)]; rfl,
   by decide,
   (c6_negative_number_disambiguation.2.2.2.1 '5' [] (by decide)).1,
   by decide,
   by rw [c6_negative_number_disambiguation.2.2.2.2.1 "f" [' ', '5'] 1 1 (by decide)]; rfl⟩

/-- C7: whenever tokenize succeeds, the returned token sequence is
non-empty, ends in the end-of-input sentinel, and contains no other
sentinel. -/
theorem c7_single_eof_sentinel (chars : List Char) (fn : String)
    (toks : List Token) (h : tokenize chars fn = some (.ok toks)) :
    toks ≠ [] ∧
    ∃ pre loc, toks = pre ++ [⟨.Eof, loc⟩] ∧ ∀ t ∈ pre, t.typ ≠ .Eof := by
  obtain ⟨pre, loc, rfl, hne⟩ := tokenize_ok_shape h
  exact ⟨by simp, pre, loc, rfl, hne⟩

/-- C7 witness: the sentinel shape of the tokens of the empty input. -/
theorem c7_single_eof_sentinel_witness :
    [(⟨.Eof, ⟨1, 1, "f"⟩⟩ : Token)] ≠ [] ∧
    ∃ pre loc, [(⟨.Eof, ⟨1, 1, "f"⟩⟩ : Token)] = pre ++ [⟨.Eof, loc⟩] ∧
      ∀ t ∈ pre, t.typ ≠ .Eof :=
  c7_single_eof_sentinel [] "f" [⟨.Eof, ⟨1, 1, "f"⟩⟩] (by unfold tokenize shebangStrip; rfl)

/-- C8: a leading `;` line comment is consumed through (not including) the
next line terminator and emits no token — tokenizing `;` + comment body +
terminator + rest returns exactly the tokens of terminator + rest — so
`; note\npush 1` tokenizes and parses to the same Command sequence as
`push 1`. -/
theorem c8_comment_transparency :
    (∀ note rest fn, (∀ ch ∈ note, isLineTerm ch = false) →
      tokenize (';' :: (note ++ '\n' :: rest)) fn =
        tokenize ('\n' :: rest) fn) ∧
    lexThenParse "; note\npush 1" "f" =
      some (.ok (.ok [.Push (.Number 1)] 3)) ∧
    lexThenParse "push 1" "f" = some (.ok (.ok [.Push (.Number 1)] 3)) ∧
    lexThenParse "; note\npush 1" "f" = lexThenParse "push 1" "f" := by
  have h1 : lexThenParse "; note\npush 1" "f" =
      some (.ok (.ok [.Push (.Number 1)] 3)) := by rfl
  have h2 : lexThenParse "push 1" "f" =
      some (.ok (.ok [.Push (.Number 1)] 3)) := by rfl
  exact ⟨fun note rest fn h => tokenize_comment note rest fn h, h1, h2,
    by rw [h1, h2]⟩

/-- C8 witness: the comment conjunct applied at the concrete comment body
` note` and remainder `push 1`. -/
theorem c8_comment_transparency_witness :
    (∀ ch ∈ " note".data, isLineTerm ch = false) ∧
    tokenize (';' :: (" note".data ++ '\n' :: "push 1".data)) "f" =
      tokenize ('\n' :: "push 1".data) "f" :=
  ⟨by decide, c8_comment_transparency.1 " note".data "push 1".data "f" (by decide)⟩

/-- C9: on any token vector of the shape tokenize guarantees (non-`Eof`
tokens closed by exactly one final sentinel), the parser never performs an
out-of-bounds access or a cursor underflow: for every fuel, the top-level
loop started at cursor 0 — and `parse` itself — cannot reach the `panic`
outcome that models those accesses. -/
theorem c9_parser_cursor_safety (tokens : List Token) (hg : GoodToks tokens) :
    (∀ fuel acc, parseLoop tokens fuel 0 acc ≠ .panic) ∧
    parse tokens ≠ .panic :=
  ⟨fun fuel acc =>
     (parser_no_panic tokens hg fuel).2.2.2.2 0 acc (Inv_zero tokens),
   (parser_no_panic tokens hg (4 * tokens.length + 4)).2.2.2.2 0 []
     (Inv_zero tokens)⟩

/-- C9 witness: cursor safety on the singleton sentinel token vector. -/
theorem c9_parser_cursor_safety_witness :
    GoodToks [⟨.Eof, ⟨1, 1, "f"⟩⟩] ∧
    parse [⟨.Eof, ⟨1, 1, "f"⟩⟩] ≠ .panic :=
  ⟨⟨[], ⟨1, 1, "f"⟩, rfl, by simp⟩,
   (c9_parser_cursor_safety [⟨.Eof, ⟨1, 1, "f"⟩⟩]
     ⟨[], ⟨1, 1, "f"⟩, rfl, by simp⟩).2⟩

/-- C10: tokenize terminates on every finite input: although the source's
scan loops move the index both forward and backward, each outer iteration
advances by at least one character net, so fuel equal to the remaining
length always suffices (`tokLoop` never exhausts it), and `tokenize` — run
with fuel equal to the input length — always returns. -/
theorem c10_tokenize_terminates :
    (∀ chars fn, (tokenize chars fn).isSome = true) ∧
    (∀ fn fuel rest line col acc, rest.length ≤ fuel →
      (tokLoop fn fuel rest line col acc).isSome = true) :=
  ⟨fun chars fn => tokenize_isSome chars fn,
   fun fn fuel rest line col acc h => tokLoop_isSome fn fuel rest line col acc h⟩

/-- C10 witness: fuel sufficiency applied at a concrete one-character
remainder with fuel 1. -/
theorem c10_tokenize_terminates_witness :
    ['a'].length ≤ 1 ∧ (tokLoop "f" 1 ['a'] 1 1 []).isSome = true :=
  ⟨by decide, c10_tokenize_terminates.2 "f" 1 ['a'] 1 1 [] (by decide)⟩

end EvmAsm
